import Mathlib

/-!
# Verification of the `rastar` A* search core

This file gives a shallow embedding, in Lean 4, of the search engine of the
`rastar` repository (`src/main.rs`): the frontier priority structure
(`NodeCost` with its flipped comparison, popped through a max-heap), the
Euclidean `distance` function, the `adjacent_nodes` neighbour enumeration,
the relaxation loop of `main`, and `reconstruct_path`.

Machine integers (`usize`) are modelled as `Nat`; the `f64` travelled costs
are modelled as real numbers, with the `as usize` cast on priority keys
modelled by `Nat.floor` (truncation toward zero, clamped at zero from below,
exactly as the saturating float-to-integer cast behaves on the values that
occur).  The `HashMap`s are modelled as functions `Nat → Option _`, and the
`BinaryHeap` as a list popped at its `Ord`-greatest element, which is the
documented behaviour of `BinaryHeap::pop`.  The non-terminating `while let`
loops are modelled with explicit fuel.
-/

/-- Mirrors `struct NodeCost { cost: usize, node: usize }`: a frontier entry,
holding the (truncated) estimated total cost through `node`. -/
structure NodeCost where
  cost : Nat
  node : Nat
deriving DecidableEq

/-- Mirrors `impl Ord for NodeCost`:
`other.cost.cmp(&self.cost).then_with(|| self.node.cmp(&other.node))`.
The cost comparison is flipped (so that the max-heap pops the smallest cost)
while the node comparison is not. -/
def NodeCost.cmp (a b : NodeCost) : Ordering :=
  (compare b.cost a.cost).then (compare a.node b.node)

/-- The greater of two frontier entries in the heap order (left-biased). -/
def better (a b : NodeCost) : NodeCost :=
  if NodeCost.cmp a b = Ordering.lt then b else a

/-- Model of `BinaryHeap::pop`: return the `Ord`-greatest entry together with
the remaining entries.  (`BinaryHeap` is a max-heap with respect to the
`Ord` instance above.) -/
def popMax : List NodeCost → Option (NodeCost × List NodeCost)
  | [] => none
  | e :: es => some (es.foldl better e, (e :: es).erase (es.foldl better e))

/-- Mirrors `fn distance`: the Euclidean straight-line distance
`sqrt((x1 - x2)^2 + (y1 - y2)^2)` between the coordinates of two nodes. -/
noncomputable def distance (nodes : List (Int × Int)) (node1 node2 : Nat) : ℝ :=
  Real.sqrt ((((nodes.getD node1 (0, 0)).1 - (nodes.getD node2 (0, 0)).1 : Int) : ℝ) ^ 2 +
    (((nodes.getD node1 (0, 0)).2 - (nodes.getD node2 (0, 0)).2 : Int) : ℝ) ^ 2)

/-- Mirrors `fn adjacent_nodes`: scan `index` over `0..matrix.len()` and keep
the indices with `matrix[index][node] == 1`. -/
def adjacent_nodes (matrix : List (List Nat)) (node : Nat) : List Nat :=
  (List.range matrix.length).filter (fun index => (matrix.getD index []).getD node 0 == 1)

/-- The mutable run state of `main`'s search loop: the `frontier` binary heap,
the `travelled_cost` and `prev_node` hash maps, and the `found` flag. -/
structure AState where
  frontier : List NodeCost
  travelled_cost : Nat → Option ℝ
  prev_node : Nat → Option Nat
  found : Bool

/-- `HashMap::insert` on the function model of a map. -/
def upd {β : Type} (f : Nat → Option β) (k : Nat) (v : β) : Nat → Option β :=
  fun n => if n = k then some v else f n

/-- Mirrors the body of `for neighbour in neighbours { ... }` in `main`:
compute the tentative cost through `current`; if `neighbour` has no recorded
cost or the tentative cost is strictly smaller, record cost and predecessor
and push a frontier entry keyed by the truncated estimate; otherwise leave
the state unchanged. -/
noncomputable def relax (nodes : List (Int × Int)) (goal current : Nat)
    (s : AState) (neighbour : Nat) : AState :=
  let temp_cost : ℝ := (s.travelled_cost current).getD 0 + distance nodes current neighbour
  match s.travelled_cost neighbour with
  | some cost =>
    if temp_cost < cost then
      { s with
        prev_node := upd s.prev_node neighbour current,
        travelled_cost := upd s.travelled_cost neighbour temp_cost,
        frontier :=
          { cost := ⌊temp_cost + distance nodes neighbour goal⌋₊, node := neighbour } ::
            s.frontier }
    else s
  | none =>
      { s with
        prev_node := upd s.prev_node neighbour current,
        travelled_cost := upd s.travelled_cost neighbour temp_cost,
        frontier :=
          { cost := ⌊temp_cost + distance nodes neighbour goal⌋₊, node := neighbour } ::
            s.frontier }

/-- Mirrors `while let Some(current) = frontier.pop() { ... }` in `main`,
with explicit fuel: pop the greatest entry; stop with `found := true` on the
goal test; otherwise relax every neighbour of the popped node and continue.
Returns `none` when the fuel is exhausted before the loop ends. -/
noncomputable def searchLoop (nodes : List (Int × Int)) (matrix : List (List Nat)) (goal : Nat) :
    Nat → AState → Option AState
  | 0, _ => none
  | fuel + 1, s =>
    match popMax s.frontier with
    | none => some s
    | some (current, rest) =>
      if current.node = goal then some { s with frontier := rest, found := true }
      else
        searchLoop nodes matrix goal fuel
          ((adjacent_nodes matrix current.node).foldl (relax nodes goal current.node)
            { s with frontier := rest })

/-- Mirrors `fn reconstruct_path`, with explicit fuel for its `while let`
loop: follow `prev_node` from `current`, prepending `node + 1` at each step,
until a node with no predecessor is reached.  Returns `none` when the fuel is
exhausted first. -/
def reconstructFuel (prev_node : Nat → Option Nat) : Nat → Nat → List Nat → Option (List Nat)
  | 0, _, _ => none
  | fuel + 1, current, path =>
    match prev_node current with
    | some node => reconstructFuel prev_node fuel node ((node + 1) :: path)
    | none => some path

/-- The observable outcome printed by `main` after the loop: either the
reconstructed 1-indexed path together with the travelled cost of the goal,
or the "Did not find a path" report. -/
inductive SearchOutcome where
  | pathFound : List Nat → ℝ → SearchOutcome
  | noPath : SearchOutcome

/-- Mirrors the `if found { ... } else { ... }` epilogue of `main`. -/
noncomputable def render (goal rfuel : Nat) (s : AState) : Option SearchOutcome :=
  if s.found then
    match reconstructFuel s.prev_node rfuel goal [goal + 1] with
    | some path => some (SearchOutcome.pathFound path ((s.travelled_cost goal).getD 0))
    | none => none
  else some SearchOutcome.noPath

/-- The initial run state of `main`: the frontier holds `(0, 0)`, the start
node has travelled cost `0`, no predecessors are recorded. -/
noncomputable def initState : AState :=
  { frontier := [{ cost := 0, node := 0 }],
    travelled_cost := fun n => if n = 0 then some 0 else none,
    prev_node := fun _ => none,
    found := false }

/-- A small run state with the start cost recorded and node 1 holding
travelled cost 1 and an empty frontier, used to evaluate the overwrite
behaviour of a relaxation step on a concrete input. -/
noncomputable def w9State : AState :=
  { frontier := [],
    travelled_cost := fun n => if n = 0 then some 0 else if n = 1 then some 1 else none,
    prev_node := fun _ => none,
    found := false }

/-- The whole search of `main` on a loaded graph: `goal = amount - 1` where
`amount` is the node count, run the loop from the initial state, then render
the outcome. -/
noncomputable def runSearch (nodes : List (Int × Int)) (matrix : List (List Nat))
    (fuel rfuel : Nat) : Option SearchOutcome :=
  match searchLoop nodes matrix (nodes.length - 1) fuel initState with
  | none => none
  | some s => render (nodes.length - 1) rfuel s

/-- One edge of the traversal relation the search walks: `b` is listed among
the neighbours of `a`. -/
def stepsTo (matrix : List (List Nat)) (a b : Nat) : Prop :=
  b ∈ adjacent_nodes matrix a

/-- `b` is reachable from `a` along the traversal relation. -/
def Reachable (matrix : List (List Nat)) (a b : Nat) : Prop :=
  Relation.ReflTransGen (stepsTo matrix) a b

/-- `k`-fold iteration of the predecessor map, used to talk about the walk
`reconstruct_path` performs. -/
def stepN (m : Nat → Option Nat) : Nat → Nat → Option Nat
  | 0, c => some c
  | k + 1, c =>
    match m c with
    | some x => stepN m k x
    | none => none

/-- The walk along a predecessor map starting at `c` finds a predecessor at
every step (as happens when a cycle is reachable from `c`). -/
def FollowsForever (m : Nat → Option Nat) (c : Nat) : Prop :=
  ∀ k, (stepN m k c).isSome

/-- The `reconstruct_path` walk from `c` runs out of fuel no matter how much
fuel it is given: the source loop would not terminate. -/
def loopsForever (m : Nat → Option Nat) (c : Nat) : Prop :=
  ∀ fuel path, reconstructFuel m fuel c path = none

/-- A concrete predecessor map with the two-node cycle `0 ↔ 1`. -/
def cycMap : Nat → Option Nat :=
  fun n => if n = 0 then some 1 else if n = 1 then some 0 else none

/-- The predecessor-edge relation of a predecessor map: `prevRel m x y`
holds when the recorded predecessor of `x` is `y`. -/
def prevRel (m : Nat → Option Nat) (x y : Nat) : Prop :=
  m x = some y

/-- The state of `main`'s loop after `k` iterations (the state stops
changing once the loop exits, by emptiness or by the goal test).  This is
the same loop body as `searchLoop`, indexed by iteration count instead of
being run to completion, so that properties "at any point of the search"
can be stated. -/
noncomputable def runSteps (nodes : List (Int × Int)) (matrix : List (List Nat)) (goal : Nat) :
    Nat → AState → AState
  | 0, s => s
  | k + 1, s =>
    match popMax s.frontier with
    | none => s
    | some (current, rest) =>
      if current.node = goal then { s with frontier := rest, found := true }
      else
        runSteps nodes matrix goal k
          ((adjacent_nodes matrix current.node).foldl (relax nodes goal current.node)
            { s with frontier := rest })

/-- The inductive invariant of the search loop.  All facts are about the
ledger (`travelled_cost`, `prev_node`) and the frontier of a run state. -/
structure LoopInv (nodes : List (Int × Int)) (matrix : List (List Nat)) (s : AState) : Prop where
  start_cost : s.travelled_cost 0 = some 0
  cost_nonneg : ∀ n v, s.travelled_cost n = some v → 0 ≤ v
  frontier_dom : ∀ e ∈ s.frontier, (s.travelled_cost e.node).isSome = true
  dom_lt : ∀ n, (s.travelled_cost n).isSome = true → n = 0 ∨ n < matrix.length
  prev_src : ∀ x y, s.prev_node x = some y → (s.travelled_cost x).isSome = true
  prev_tgt : ∀ x y, s.prev_node x = some y → (s.travelled_cost y).isSome = true
  prev_start : s.prev_node 0 = none
  prev_defined : ∀ n, (s.travelled_cost n).isSome = true → n ≠ 0 →
    (s.prev_node n).isSome = true
  prev_le : ∀ x y, s.prev_node x = some y → ∃ gx gy, s.travelled_cost x = some gx ∧
    s.travelled_cost y = some gy ∧ gy + distance nodes y x ≤ gx
  prev_acyclic : ∀ n, ¬ Relation.TransGen (prevRel s.prev_node) n n
  reach : ∀ n, (s.travelled_cost n).isSome = true → Reachable matrix 0 n

/-- The total Euclidean cost of a node sequence: the sum of the edge
distances of consecutive pairs. -/
noncomputable def pathCost (nodes : List (Int × Int)) : List Nat → ℝ
  | [] => 0
  | [_] => 0
  | a :: b :: rest => distance nodes a b + pathCost nodes (b :: rest)

/-- A concrete 5-node graph: start 0 at (0,0), goal 4 at (12,0); one route
0-3-4 through (6,2) of cost 4√10 ≈ 12.65, one route 0-1-2-4 along the axis
of cost 12. -/
def exNodes : List (Int × Int) :=
  [(0, 0), (4, 0), (8, 0), (6, 2), (12, 0)]

/-- The symmetric adjacency matrix of `exNodes` with edges
0-1, 1-2, 2-4, 0-3, 3-4. -/
def exMatrix : List (List Nat) :=
  [[0, 1, 0, 1, 0],
   [1, 0, 1, 0, 0],
   [0, 1, 0, 0, 1],
   [1, 0, 0, 0, 1],
   [0, 0, 1, 1, 0]]

/-- The sum of all edge weights between node indices below `N`; an upper
bound for any single distance, used to bound recorded travelled costs. -/
noncomputable def sumW (nodes : List (Int × Int)) (N : Nat) : ℝ :=
  ((Finset.range N) ×ˢ (Finset.range N)).sum (fun p => distance nodes p.1 p.2)

/-- The number of nodes below `N` holding a recorded travelled cost. -/
noncomputable def domCount (s : AState) (N : Nat) : Nat :=
  ((Finset.range N).filter (fun n => (s.travelled_cost n).isSome)).card

/-- `x` is a strictly positive edge weight of the graph restricted to node
indices below `N`. -/
def IsPosWeight (nodes : List (Int × Int)) (N : Nat) (x : ℝ) : Prop :=
  0 < x ∧ ∃ i, i < N ∧ ∃ j, j < N ∧ x = distance nodes i j

/-- Size-related invariants of the run state: every recorded travelled cost
is bounded by `domCount · sumW` and is a sum of positive edge weights.
Together these confine the recorded costs to a fixed finite set of reals,
which bounds how often a cost can strictly decrease. -/
structure SizeInv (nodes : List (Int × Int)) (N : Nat) (s : AState) : Prop where
  vbound : ∀ n v, s.travelled_cost n = some v → v ≤ domCount s N * sumW nodes N
  vrepr : ∀ n v, s.travelled_cost n = some v →
    ∃ M : Multiset ℝ, (∀ x ∈ M, IsPosWeight nodes N x) ∧ M.sum = v

/-- The finite set of strictly positive edge weights. -/
noncomputable def weightsPos (nodes : List (Int × Int)) (N : Nat) : Finset ℝ :=
  ((Finset.range N ×ˢ Finset.range N).image (fun p => distance nodes p.1 p.2)).filter
    (fun x => 0 < x)

/-- A cap on how many positive weights can add up to a recorded cost. -/
noncomputable def capK (nodes : List (Int × Int)) (N : Nat) : Nat :=
  if h : (weightsPos nodes N).Nonempty then
    ⌊(N * sumW nodes N) / (weightsPos nodes N).min' h⌋₊
  else 0

/-- The finite set of reals that can ever appear as a recorded travelled
cost: sums of at most `capK` positive edge weights. -/
noncomputable def valueSet (nodes : List (Int × Int)) (N : Nat) : Finset ℝ :=
  ((capK nodes N • (weightsPos nodes N).val).powerset.toFinset).image Multiset.sum

/-- The termination potential of one node: how many candidate values lie
strictly below its recorded cost (or all of them plus one, when the node has
no recorded cost yet). -/
noncomputable def phiNode (A : Finset ℝ) (s : AState) (n : Nat) : Nat :=
  match s.travelled_cost n with
  | some v => (A.filter (fun a => a < v)).card
  | none => A.card + 1

/-- The termination potential of a run state: frontier size plus the node
potentials.  Every loop iteration strictly decreases it. -/
noncomputable def phiState (A : Finset ℝ) (N : Nat) (s : AState) : Nat :=
  s.frontier.length + (Finset.range N).sum (phiNode A s)

/-- Two run states that agree everywhere except possibly in the internal
arrangement of the frontier's entries.  `BinaryHeap` only exposes its
contents as a multiset through `pop`, so two heap layouts of the same
entries are indistinguishable to the search. -/
def StateEquiv (s t : AState) : Prop :=
  s.frontier.Perm t.frontier ∧ s.travelled_cost = t.travelled_cost ∧
    s.prev_node = t.prev_node ∧ s.found = t.found

/-! ## The heap order on `NodeCost` -/

theorem NodeCost.cmp_eq_lt_iff (a b : NodeCost) :
    a.cmp b = Ordering.lt ↔ b.cost < a.cost ∨ (a.cost = b.cost ∧ a.node < b.node) := by
  unfold NodeCost.cmp
  rcases Nat.lt_trichotomy b.cost a.cost with h | h | h
  · rw [Nat.compare_eq_lt.mpr h]
    simp [Ordering.then]
    omega
  · rw [Nat.compare_eq_eq.mpr h]
    simp [Ordering.then, Nat.compare_eq_lt]
    omega
  · rw [Nat.compare_eq_gt.mpr h]
    simp [Ordering.then]
    omega

theorem NodeCost.cmp_eq_gt_iff (a b : NodeCost) :
    a.cmp b = Ordering.gt ↔ a.cost < b.cost ∨ (a.cost = b.cost ∧ b.node < a.node) := by
  unfold NodeCost.cmp
  rcases Nat.lt_trichotomy b.cost a.cost with h | h | h
  · rw [Nat.compare_eq_lt.mpr h]
    simp [Ordering.then]
    omega
  · rw [Nat.compare_eq_eq.mpr h]
    simp [Ordering.then, Nat.compare_eq_gt]
    omega
  · rw [Nat.compare_eq_gt.mpr h]
    simp [Ordering.then]
    omega

theorem NodeCost.cmp_eq_eq_iff (a b : NodeCost) :
    a.cmp b = Ordering.eq ↔ a = b := by
  cases a with
  | mk ac an =>
    cases b with
    | mk bc bn =>
      unfold NodeCost.cmp
      rcases Nat.lt_trichotomy bc ac with h | h | h
      · rw [Nat.compare_eq_lt.mpr h]
        simp [Ordering.then]
        omega
      · rw [Nat.compare_eq_eq.mpr h]
        simp [Ordering.then, Nat.compare_eq_eq]
        omega
      · rw [Nat.compare_eq_gt.mpr h]
        simp [Ordering.then]
        omega

theorem NodeCost.cmp_not_lt_iff (a b : NodeCost) :
    ¬ a.cmp b = Ordering.lt ↔ a.cost < b.cost ∨ (a.cost = b.cost ∧ b.node ≤ a.node) := by
  constructor
  · intro h
    rcases ho : a.cmp b with _ | _ | _
    · exact absurd ho h
    · rcases (NodeCost.cmp_eq_eq_iff a b).mp ho with rfl
      omega
    · rcases (NodeCost.cmp_eq_gt_iff a b).mp ho with h1 | h1 <;> omega
  · intro h hlt
    rcases (NodeCost.cmp_eq_lt_iff a b).mp hlt with h1 | h1 <;> omega

theorem NodeCost.cmp_not_lt_trans {a b c : NodeCost}
    (hab : ¬ a.cmp b = Ordering.lt) (hbc : ¬ b.cmp c = Ordering.lt) :
    ¬ a.cmp c = Ordering.lt := by
  rw [NodeCost.cmp_not_lt_iff] at hab hbc ⊢
  omega

theorem better_eq_or (a b : NodeCost) : better a b = a ∨ better a b = b := by
  unfold better
  split <;> simp

theorem better_not_lt_left (a b : NodeCost) : ¬ (better a b).cmp a = Ordering.lt := by
  unfold better
  by_cases h : NodeCost.cmp a b = Ordering.lt
  · rw [NodeCost.cmp_eq_lt_iff] at h
    rw [if_pos (by rw [NodeCost.cmp_eq_lt_iff]; exact h), NodeCost.cmp_not_lt_iff]
    omega
  · rw [if_neg h, NodeCost.cmp_not_lt_iff]
    omega

theorem better_not_lt_right (a b : NodeCost) : ¬ (better a b).cmp b = Ordering.lt := by
  unfold better
  by_cases h : NodeCost.cmp a b = Ordering.lt
  · rw [if_pos h, NodeCost.cmp_not_lt_iff]
    omega
  · rw [if_neg h]
    rw [NodeCost.cmp_not_lt_iff] at h ⊢
    omega

theorem foldl_better_mem (l : List NodeCost) : ∀ e : NodeCost, l.foldl better e ∈ e :: l := by
  induction l with
  | nil => intro e; simp
  | cons z l ih =>
    intro e
    have h := ih (better e z)
    rw [List.foldl_cons]
    rcases List.mem_cons.mp h with h1 | h1
    · rcases better_eq_or e z with hz | hz
      · rw [h1, hz]; exact List.mem_cons_self _ _
      · rw [h1, hz]; exact List.mem_cons_of_mem _ (List.mem_cons_self _ _)
    · exact List.mem_cons_of_mem _ (List.mem_cons_of_mem _ h1)

theorem foldl_better_not_lt (l : List NodeCost) :
    ∀ e : NodeCost, ∀ x ∈ e :: l, ¬ (l.foldl better e).cmp x = Ordering.lt := by
  induction l with
  | nil =>
    intro e x hx
    simp only [List.mem_cons, List.not_mem_nil, or_false] at hx
    subst hx
    rw [List.foldl_nil, NodeCost.cmp_not_lt_iff]
    omega
  | cons z l ih =>
    intro e x hx
    rw [List.foldl_cons]
    rcases List.mem_cons.mp hx with rfl | hx
    · exact NodeCost.cmp_not_lt_trans (ih (better x z) _ (List.mem_cons_self _ _))
        (better_not_lt_left x z)
    rcases List.mem_cons.mp hx with rfl | hx
    · exact NodeCost.cmp_not_lt_trans (ih (better e x) _ (List.mem_cons_self _ _))
        (better_not_lt_right e x)
    · exact ih (better e z) x (List.mem_cons_of_mem _ hx)

theorem popMax_mem {l : List NodeCost} {e : NodeCost} {rest : List NodeCost}
    (h : popMax l = some (e, rest)) : e ∈ l ∧ rest = l.erase e := by
  cases l with
  | nil => simp [popMax] at h
  | cons z l =>
    simp only [popMax, Option.some.injEq, Prod.mk.injEq] at h
    obtain ⟨he, hr⟩ := h
    subst he
    exact ⟨foldl_better_mem l z, hr.symm⟩

theorem popMax_not_lt {l : List NodeCost} {e : NodeCost} {rest : List NodeCost}
    (h : popMax l = some (e, rest)) : ∀ x ∈ l, ¬ e.cmp x = Ordering.lt := by
  cases l with
  | nil => simp [popMax] at h
  | cons z l =>
    simp only [popMax, Option.some.injEq, Prod.mk.injEq] at h
    obtain ⟨he, _⟩ := h
    subst he
    exact foldl_better_not_lt l z

/-! ## C2: the tie-break of the frontier pop -/

/-- **C2** (counterexample): two frontier entries with equal estimated cost 5
on nodes 0 and 1; the pop returns node 1 — the larger index — first, not the
smaller as the claim states. -/
theorem c2_counterexample :
    popMax [⟨5, 0⟩, ⟨5, 1⟩] = some (⟨5, 1⟩, [⟨5, 0⟩]) ∧
      ¬ popMax [⟨5, 0⟩, ⟨5, 1⟩] = some (⟨5, 0⟩, [⟨5, 1⟩]) := by
  decide

/-- **C2** (amended): the frontier pop returns an entry of minimal estimated
cost, and among entries of equal estimated cost the one with the *larger*
node index is returned first: the ordering is estimated cost ascending with
node index *descending* as tie-break. -/
theorem c2_pop_min_cost_max_node {l : List NodeCost} {e : NodeCost} {rest : List NodeCost}
    (hpop : popMax l = some (e, rest)) :
    ∀ b ∈ l, e.cost ≤ b.cost ∧ (b.cost = e.cost → b.node ≤ e.node) := by
  intro b hb
  have h := popMax_not_lt hpop b hb
  rw [NodeCost.cmp_not_lt_iff] at h
  omega

/-- **C2** (witness): the amended statement evaluated on the concrete tie. -/
theorem c2_pop_min_cost_max_node_witness :
    (5 : Nat) ≤ 5 ∧ ((5 : Nat) = 5 → (0 : Nat) ≤ 1) :=
  c2_pop_min_cost_max_node
    (by decide : popMax [⟨5, 0⟩, ⟨5, 1⟩] = some (⟨5, 1⟩, [⟨5, 0⟩])) ⟨5, 0⟩ (by decide)

/-! ## C5: neighbour enumeration -/

/-- **C5**: for a node index within every row, `adjacent_nodes` returns
exactly the indices `n < matrix.len()` with `matrix[n][node] == 1` (the
matrix is read at row `n`, column `node`), in ascending order of `n`. -/
theorem c5_adjacent_nodes_spec (matrix : List (List Nat)) (node : Nat)
    (hnode : ∀ row ∈ matrix, node < row.length) :
    (∀ n, n ∈ adjacent_nodes matrix node ↔
        n < matrix.length ∧ (matrix.getD n []).getD node 0 = 1) ∧
      (adjacent_nodes matrix node).Sorted (· < ·) := by
  constructor
  · intro n
    simp [adjacent_nodes, List.mem_filter, List.mem_range]
  · exact List.Pairwise.filter _ (List.pairwise_lt_range _)

/-- **C5** (witness): the characterization evaluated on a concrete 2 × 2
matrix. -/
theorem c5_adjacent_nodes_spec_witness :
    (∀ n, n ∈ adjacent_nodes [[0, 1], [1, 0]] 0 ↔
        n < ([[0, 1], [1, 0]] : List (List Nat)).length ∧
          (([[0, 1], [1, 0]] : List (List Nat)).getD n []).getD 0 0 = 1) ∧
      (adjacent_nodes [[0, 1], [1, 0]] 0).Sorted (· < ·) :=
  c5_adjacent_nodes_spec [[0, 1], [1, 0]] 0 (by decide)

/-! ## C7: reconstruction on a cyclic predecessor map -/

theorem stepN_succ {m : Nat → Option Nat} {c x : Nat} (h : m c = some x) (k : Nat) :
    stepN m (k + 1) c = stepN m k x := by
  simp [stepN, h]

/-- If every step of the predecessor walk from `c` is defined, the
`reconstruct_path` loop runs out of any amount of fuel. -/
theorem reconstructFuel_none_of_followsForever (m : Nat → Option Nat) :
    ∀ fuel c path, FollowsForever m c → reconstructFuel m fuel c path = none := by
  intro fuel
  induction fuel with
  | zero => intro c path _; rfl
  | succ f ih =>
    intro c path h
    have h1 : (m c).isSome := by
      have h2 := h 1
      cases hc : m c with
      | some x => simp
      | none => rw [show stepN m 1 c = none by simp [stepN, hc]] at h2; simp at h2
    obtain ⟨x, hx⟩ := Option.isSome_iff_exists.mp h1
    have hf : FollowsForever m x := fun k => by
      have h3 := h (k + 1)
      rwa [stepN_succ hx k] at h3
    rw [show reconstructFuel m (f + 1) c path = reconstructFuel m f x ((x + 1) :: path) by
      simp [reconstructFuel, hx]]
    exact ih x _ hf

theorem cycMap_stepN_isSome : ∀ k c, c = 0 ∨ c = 1 → (stepN cycMap k c).isSome := by
  intro k
  induction k with
  | zero => intro c _; simp [stepN]
  | succ k ih =>
    intro c hc
    rcases hc with rfl | rfl
    · rw [stepN_succ (show cycMap 0 = some 1 by rfl) k]
      exact ih 1 (Or.inr rfl)
    · rw [stepN_succ (show cycMap 1 = some 0 by rfl) k]
      exact ih 0 (Or.inl rfl)

/-- **C7** (counterexample): on the concrete predecessor map with the cycle
`0 ↔ 1`, reached at the goal node `0`, `reconstruct_path` never terminates —
it detects nothing and raises no error, refuting the claimed defensive
check. -/
theorem c7_counterexample :
    cycMap 0 = some 1 ∧ cycMap 1 = some 0 ∧ loopsForever cycMap 0 :=
  ⟨rfl, rfl, fun fuel path => reconstructFuel_none_of_followsForever cycMap fuel 0 path
    (fun k => cycMap_stepN_isSome k 0 (Or.inl rfl))⟩

/-- **C7** (amended): `reconstruct_path` performs no cycle detection at all:
whenever the predecessor walk from the goal node finds a predecessor at
every step — as happens exactly when a cycle is reachable from the goal —
the reconstruction loop never terminates, and no error is ever raised. -/
theorem c7_reconstruct_diverges_on_cycle (m : Nat → Option Nat) (c : Nat)
    (h : FollowsForever m c) : loopsForever m c :=
  fun fuel path => reconstructFuel_none_of_followsForever m fuel c path h

/-- **C7** (witness): divergence evaluated on the concrete cyclic map with
fuel 9. -/
theorem c7_reconstruct_diverges_on_cycle_witness :
    reconstructFuel cycMap 9 0 [1] = none :=
  c7_reconstruct_diverges_on_cycle cycMap 0
    (fun k => cycMap_stepN_isSome k 0 (Or.inl rfl)) 9 [1]

/-! ## C4: the relaxation step -/

theorem distance_nonneg (nodes : List (Int × Int)) (a b : Nat) : 0 ≤ distance nodes a b :=
  Real.sqrt_nonneg _

theorem relax_eq_of_no_improve (nodes : List (Int × Int)) (goal current neighbour : Nat)
    (s : AState) (gc : ℝ) (hc : s.travelled_cost current = some gc)
    (c : ℝ) (hcnb : s.travelled_cost neighbour = some c)
    (hnot : ¬ gc + distance nodes current neighbour < c) :
    relax nodes goal current s neighbour = s := by
  simp only [relax, hc, Option.getD_some, hcnb]
  rw [if_neg hnot]

theorem relax_eq_of_improve (nodes : List (Int × Int)) (goal current neighbour : Nat)
    (s : AState) (gc : ℝ) (hc : s.travelled_cost current = some gc)
    (hupd : s.travelled_cost neighbour = none ∨
      ∃ c, s.travelled_cost neighbour = some c ∧
        gc + distance nodes current neighbour < c) :
    relax nodes goal current s neighbour =
      { s with
        prev_node := upd s.prev_node neighbour current,
        travelled_cost :=
          upd s.travelled_cost neighbour (gc + distance nodes current neighbour),
        frontier :=
          { cost := ⌊gc + distance nodes current neighbour +
              distance nodes neighbour goal⌋₊, node := neighbour } :: s.frontier } := by
  rcases hupd with hnone | ⟨c, hcnb, hlt⟩
  · simp only [relax, hc, Option.getD_some, hnone]
  · simp only [relax, hc, Option.getD_some, hcnb]
    rw [if_pos hlt]

/-- **C4**: in a relaxation step for popped node `current` and neighbour
`neighbour`, with tentative cost `travelled_cost(current) + distance`: if the
neighbour has no recorded cost or the tentative cost is strictly smaller, the
ledger records the tentative cost and `current` as predecessor for the
neighbour and a frontier entry for the neighbour is pushed; otherwise the
state is left unchanged. -/
theorem c4_relaxation_step (nodes : List (Int × Int)) (goal current neighbour : Nat)
    (s : AState) (gc : ℝ) (hc : s.travelled_cost current = some gc) :
    (∀ c, s.travelled_cost neighbour = some c →
        ¬ gc + distance nodes current neighbour < c →
        relax nodes goal current s neighbour = s) ∧
      ((s.travelled_cost neighbour = none ∨
          ∃ c, s.travelled_cost neighbour = some c ∧
            gc + distance nodes current neighbour < c) →
        relax nodes goal current s neighbour =
          { s with
            prev_node := upd s.prev_node neighbour current,
            travelled_cost :=
              upd s.travelled_cost neighbour (gc + distance nodes current neighbour),
            frontier :=
              { cost := ⌊gc + distance nodes current neighbour +
                  distance nodes neighbour goal⌋₊, node := neighbour } :: s.frontier }) :=
  ⟨fun c hcnb hnot => relax_eq_of_no_improve nodes goal current neighbour s gc hc c hcnb hnot,
    fun hupd => relax_eq_of_improve nodes goal current neighbour s gc hc hupd⟩

/-- **C4** (witness): the relaxation behaviour evaluated for the fresh
neighbour 1 of node 0 in the initial state. -/
theorem c4_relaxation_step_witness :
    (∀ c, initState.travelled_cost 1 = some c →
        ¬ (0 : ℝ) + distance [(0, 0), (2, 1)] 0 1 < c →
        relax [(0, 0), (2, 1)] 1 0 initState 1 = initState) ∧
      ((initState.travelled_cost 1 = none ∨
          ∃ c, initState.travelled_cost 1 = some c ∧
            (0 : ℝ) + distance [(0, 0), (2, 1)] 0 1 < c) →
        relax [(0, 0), (2, 1)] 1 0 initState 1 =
          { initState with
            prev_node := upd initState.prev_node 1 0,
            travelled_cost :=
              upd initState.travelled_cost 1 ((0 : ℝ) + distance [(0, 0), (2, 1)] 0 1),
            frontier :=
              { cost := ⌊(0 : ℝ) + distance [(0, 0), (2, 1)] 0 1 +
                  distance [(0, 0), (2, 1)] 1 1⌋₊, node := 1 } :: initState.frontier }) :=
  c4_relaxation_step [(0, 0), (2, 1)] 1 0 1 initState 0 rfl

/-! ## C3: the frontier key is the truncated estimate -/

/-- **C3**: whenever relaxation pushes a frontier entry for `neighbour`, the
entry's ordering key is a natural number `k` with
`k ≤ tentative + distance(neighbour, goal) < k + 1`: the real-valued
estimate truncated toward zero to an integer, not the raw real value. -/
theorem c3_key_truncation (nodes : List (Int × Int)) (goal current neighbour : Nat)
    (s : AState) (gc : ℝ) (hc : s.travelled_cost current = some gc) (hgc : 0 ≤ gc)
    (hupd : s.travelled_cost neighbour = none ∨
      ∃ c, s.travelled_cost neighbour = some c ∧
        gc + distance nodes current neighbour < c) :
    ∃ k : Nat,
      (relax nodes goal current s neighbour).frontier =
        { cost := k, node := neighbour } :: s.frontier ∧
        (k : ℝ) ≤ gc + distance nodes current neighbour + distance nodes neighbour goal ∧
        gc + distance nodes current neighbour + distance nodes neighbour goal < k + 1 := by
  have hest : 0 ≤ gc + distance nodes current neighbour + distance nodes neighbour goal := by
    have h1 := distance_nonneg nodes current neighbour
    have h2 := distance_nonneg nodes neighbour goal
    linarith
  refine ⟨⌊gc + distance nodes current neighbour + distance nodes neighbour goal⌋₊, ?_, ?_, ?_⟩
  · rw [relax_eq_of_improve nodes goal current neighbour s gc hc hupd]
  · exact Nat.floor_le hest
  · exact Nat.lt_floor_add_one _

/-- **C3** (witness): the truncation property evaluated for the fresh
neighbour 1 of node 0 in the initial state. -/
theorem c3_key_truncation_witness :
    ∃ k : Nat,
      (relax [(0, 0), (2, 1)] 1 0 initState 1).frontier =
        { cost := k, node := 1 } :: initState.frontier ∧
        (k : ℝ) ≤ 0 + distance [(0, 0), (2, 1)] 0 1 + distance [(0, 0), (2, 1)] 1 1 ∧
        0 + distance [(0, 0), (2, 1)] 0 1 + distance [(0, 0), (2, 1)] 1 1 < k + 1 :=
  c3_key_truncation [(0, 0), (2, 1)] 1 0 1 initState 0 rfl le_rfl (Or.inl rfl)

/-! ## C9: the ledger never forgets and never increases -/

theorem relax_travelled_mono (nodes : List (Int × Int)) (goal current neighbour : Nat)
    (s : AState) (n : Nat) (v : ℝ) (hv : s.travelled_cost n = some v) :
    ∃ v', (relax nodes goal current s neighbour).travelled_cost n = some v' ∧ v' ≤ v := by
  cases hnb : s.travelled_cost neighbour with
  | none =>
    refine ⟨v, ?_, le_rfl⟩
    by_cases hn : n = neighbour
    · subst hn; rw [hv] at hnb; exact absurd hnb (by simp)
    · simp only [relax, hnb]
      simp [upd, hn, hv]
  | some c =>
    by_cases hlt : (s.travelled_cost current).getD 0 + distance nodes current neighbour < c
    · by_cases hn : n = neighbour
      · subst hn
        rw [hv] at hnb
        injection hnb with hvc
        subst hvc
        refine ⟨(s.travelled_cost current).getD 0 + distance nodes current n, ?_,
          le_of_lt hlt⟩
        simp only [relax, hv]
        rw [if_pos hlt]
        simp [upd]
      · refine ⟨v, ?_, le_rfl⟩
        simp only [relax, hnb]
        rw [if_pos hlt]
        simp [upd, hn, hv]
    · refine ⟨v, ?_, le_rfl⟩
      simp only [relax, hnb]
      rw [if_neg hlt]
      exact hv

theorem foldl_relax_travelled_mono (nodes : List (Int × Int)) (goal current : Nat)
    (l : List Nat) :
    ∀ (s : AState) (n : Nat) (v : ℝ), s.travelled_cost n = some v →
      ∃ v', (l.foldl (relax nodes goal current) s).travelled_cost n = some v' ∧ v' ≤ v := by
  induction l with
  | nil => exact fun s n v hv => ⟨v, hv, le_rfl⟩
  | cons z l ih =>
    intro s n v hv
    obtain ⟨v1, hv1, hle1⟩ := relax_travelled_mono nodes goal current z s n v hv
    obtain ⟨v2, hv2, hle2⟩ := ih _ n v1 hv1
    exact ⟨v2, hv2, le_trans hle2 hle1⟩

theorem searchLoop_travelled_mono (nodes : List (Int × Int)) (matrix : List (List Nat))
    (goal : Nat) :
    ∀ (fuel : Nat) (s s' : AState), searchLoop nodes matrix goal fuel s = some s' →
      ∀ (n : Nat) (v : ℝ), s.travelled_cost n = some v →
        ∃ v', s'.travelled_cost n = some v' ∧ v' ≤ v := by
  intro fuel
  induction fuel with
  | zero => intro s s' h; simp [searchLoop] at h
  | succ f ih =>
    intro s s' h n v hv
    rw [searchLoop] at h
    cases hp : popMax s.frontier with
    | none =>
      rw [hp] at h
      injection h with h
      exact ⟨v, h ▸ hv, le_rfl⟩
    | some pr =>
      obtain ⟨current, rest⟩ := pr
      rw [hp] at h
      dsimp only at h
      by_cases hg : current.node = goal
      · rw [if_pos hg] at h
        injection h with h
        refine ⟨v, ?_, le_rfl⟩
        rw [← h]
        exact hv
      · rw [if_neg hg] at h
        obtain ⟨v1, hv1, hle1⟩ := foldl_relax_travelled_mono nodes goal current.node
          (adjacent_nodes matrix current.node) { s with frontier := rest } n v hv
        obtain ⟨v2, hv2, hle2⟩ := ih _ _ h n v1 hv1
        exact ⟨v2, hv2, le_trans hle2 hle1⟩

theorem runSteps_travelled_mono_from (nodes : List (Int × Int)) (matrix : List (List Nat))
    (goal : Nat) :
    ∀ (j : Nat) (s : AState) (n : Nat) (v : ℝ), s.travelled_cost n = some v →
      ∃ v', (runSteps nodes matrix goal j s).travelled_cost n = some v' ∧ v' ≤ v := by
  intro j
  induction j with
  | zero => exact fun s n v hv => ⟨v, hv, le_rfl⟩
  | succ k ih =>
    intro s n v hv
    rw [runSteps]
    cases hp : popMax s.frontier with
    | none => exact ⟨v, hv, le_rfl⟩
    | some pr =>
      obtain ⟨current, rest⟩ := pr
      dsimp only
      by_cases hg : current.node = goal
      · rw [if_pos hg]
        exact ⟨v, hv, le_rfl⟩
      · rw [if_neg hg]
        obtain ⟨v1, hv1, hle1⟩ := foldl_relax_travelled_mono nodes goal current.node
          (adjacent_nodes matrix current.node) { s with frontier := rest } n v hv
        obtain ⟨v2, hv2, hle2⟩ := ih _ n v1 hv1
        exact ⟨v2, hv2, le_trans hle2 hle1⟩

theorem runSteps_travelled_mono (nodes : List (Int × Int)) (matrix : List (List Nat))
    (goal : Nat) :
    ∀ (k : Nat) (s : AState) (j n : Nat) (v : ℝ),
      (runSteps nodes matrix goal k s).travelled_cost n = some v →
        ∃ v', (runSteps nodes matrix goal (k + j) s).travelled_cost n = some v' ∧ v' ≤ v := by
  intro k
  induction k with
  | zero =>
    intro s j n v hv
    rw [Nat.zero_add]
    exact runSteps_travelled_mono_from nodes matrix goal j s n v hv
  | succ k ih =>
    intro s j n v hv
    have hadd : k + 1 + j = (k + j) + 1 := by omega
    rw [hadd]
    rw [runSteps] at hv ⊢
    cases hp : popMax s.frontier with
    | none =>
      rw [hp] at hv
      exact ⟨v, hv, le_rfl⟩
    | some pr =>
      obtain ⟨current, rest⟩ := pr
      rw [hp] at hv
      dsimp only at hv ⊢
      by_cases hg : current.node = goal
      · rw [if_pos hg] at hv ⊢
        exact ⟨v, hv, le_rfl⟩
      · rw [if_neg hg] at hv ⊢
        exact ih _ j n v hv

theorem relax_overwrite_strict (nodes : List (Int × Int)) (goal current neighbour : Nat)
    (s : AState) (v : ℝ) (hv : s.travelled_cost neighbour = some v)
    (hne : relax nodes goal current s neighbour ≠ s) :
    (relax nodes goal current s neighbour).travelled_cost neighbour =
        some ((s.travelled_cost current).getD 0 + distance nodes current neighbour) ∧
      (s.travelled_cost current).getD 0 + distance nodes current neighbour < v := by
  by_cases hlt : (s.travelled_cost current).getD 0 + distance nodes current neighbour < v
  · refine ⟨?_, hlt⟩
    simp only [relax, hv]
    rw [if_pos hlt]
    simp [upd]
  · exfalso
    apply hne
    simp only [relax, hv]
    rw [if_neg hlt]

/-- **C9**: (i) at any point of a run, once a travelled cost is recorded for
a node, it is still recorded at every later point of the run and never
increases along the way; (ii) whenever a relaxation step actually changes the
state while its neighbour already has a recorded cost `v` — an overwrite of
that node's ledger entry — the newly stored cost is the tentative cost, and
it is strictly smaller than `v`. -/
theorem c9_ledger_monotone (nodes : List (Int × Int)) (matrix : List (List Nat))
    (goal : Nat) :
    (∀ (k j : Nat) (s : AState) (n : Nat) (v : ℝ),
        (runSteps nodes matrix goal k s).travelled_cost n = some v →
          ∃ v', (runSteps nodes matrix goal (k + j) s).travelled_cost n = some v' ∧
            v' ≤ v) ∧
      ∀ (current neighbour : Nat) (s : AState) (v : ℝ),
        s.travelled_cost neighbour = some v →
          relax nodes goal current s neighbour ≠ s →
          (relax nodes goal current s neighbour).travelled_cost neighbour =
              some ((s.travelled_cost current).getD 0 + distance nodes current neighbour) ∧
            (s.travelled_cost current).getD 0 + distance nodes current neighbour < v :=
  ⟨fun k j s n v hv => runSteps_travelled_mono nodes matrix goal k s j n v hv,
    fun current neighbour s v hv hne =>
      relax_overwrite_strict nodes goal current neighbour s v hv hne⟩

/-- **C9** (witness): part (i) evaluated on the single-node graph one step
into the run; part (ii) evaluated on a concrete overwriting relaxation
(node 1 holds cost 1, the tentative cost through node 0 is 0). -/
theorem c9_ledger_monotone_witness :
    (∃ v', (runSteps [(0, 0)] [[0]] 0 (0 + 1) initState).travelled_cost 0 = some v' ∧
        v' ≤ 0) ∧
      ((relax [(0, 0), (0, 0)] 1 0 w9State 1).travelled_cost 1 =
          some ((w9State.travelled_cost 0).getD 0 + distance [(0, 0), (0, 0)] 0 1) ∧
        (w9State.travelled_cost 0).getD 0 + distance [(0, 0), (0, 0)] 0 1 < 1) := by
  have hd : distance [(0, 0), (0, 0)] 0 1 = 0 := by
    simp only [distance, List.getD_cons_zero, List.getD_cons_succ]
    norm_num
  have hne : relax [(0, 0), (0, 0)] 1 0 w9State 1 ≠ w9State := by
    intro h
    have hf := congrArg AState.frontier h
    rw [relax_eq_of_improve [(0, 0), (0, 0)] 1 0 1 w9State 0 rfl
      (Or.inr ⟨1, rfl, by rw [hd]; norm_num⟩)] at hf
    simp [w9State] at hf
  exact ⟨(c9_ledger_monotone [(0, 0)] [[0]] 0).1 0 1 initState 0 0 rfl,
    (c9_ledger_monotone [(0, 0), (0, 0)] [[0, 0], [0, 0]] 1).2 0 1 w9State 1 rfl hne⟩

/-! ## C8: determinism of the search -/

theorem NodeCost.eq_of_not_lt_not_lt {a b : NodeCost}
    (h1 : ¬ a.cmp b = Ordering.lt) (h2 : ¬ b.cmp a = Ordering.lt) : a = b := by
  rw [NodeCost.cmp_not_lt_iff] at h1 h2
  cases a with
  | mk ac an =>
    cases b with
    | mk bc bn =>
      simp only at h1 h2
      have hc : ac = bc := by omega
      have hn : an = bn := by omega
      rw [hc, hn]

theorem popMax_perm {l1 l2 : List NodeCost} (h : l1.Perm l2) :
    (popMax l1 = none ∧ popMax l2 = none) ∨
      ∃ e r1 r2, popMax l1 = some (e, r1) ∧ popMax l2 = some (e, r2) ∧ r1.Perm r2 := by
  cases l1 with
  | nil =>
    left
    have h2 : l2 = [] := h.symm.eq_nil
    rw [h2]
    exact ⟨rfl, rfl⟩
  | cons z1 t1 =>
    cases l2 with
    | nil =>
      have h2 : z1 :: t1 = [] := h.eq_nil
      exact absurd h2 (by simp)
    | cons z2 t2 =>
      right
      obtain ⟨e1, r1, hp1⟩ : ∃ e1 r1, popMax (z1 :: t1) = some (e1, r1) :=
        ⟨_, _, rfl⟩
      obtain ⟨e2, r2, hp2⟩ : ∃ e2 r2, popMax (z2 :: t2) = some (e2, r2) :=
        ⟨_, _, rfl⟩
      have hm1 := popMax_mem hp1
      have hm2 := popMax_mem hp2
      have he : e1 = e2 := by
        have h1 := popMax_not_lt hp2 e1 (h.mem_iff.mp hm1.1)
        have h2 := popMax_not_lt hp1 e2 (h.mem_iff.mpr hm2.1)
        exact NodeCost.eq_of_not_lt_not_lt h2 h1
      subst he
      refine ⟨e1, r1, r2, hp1, hp2, ?_⟩
      rw [hm1.2, hm2.2]
      exact h.erase e1

theorem relax_stateEquiv (nodes : List (Int × Int)) (goal current : Nat)
    (s t : AState) (h : StateEquiv s t) (nb : Nat) :
    StateEquiv (relax nodes goal current s nb) (relax nodes goal current t nb) := by
  obtain ⟨hf, hg, hp, hfd⟩ := h
  unfold relax
  rw [hg, hp]
  cases hnb : t.travelled_cost nb with
  | none =>
    exact ⟨hf.cons _, rfl, rfl, hfd⟩
  | some c =>
    dsimp only
    by_cases hlt : (t.travelled_cost current).getD 0 + distance nodes current nb < c
    · rw [if_pos hlt, if_pos hlt]
      exact ⟨hf.cons _, rfl, rfl, hfd⟩
    · rw [if_neg hlt, if_neg hlt]
      exact ⟨hf, hg, hp, hfd⟩

theorem foldl_relax_stateEquiv (nodes : List (Int × Int)) (goal current : Nat)
    (l : List Nat) :
    ∀ (s t : AState), StateEquiv s t →
      StateEquiv (l.foldl (relax nodes goal current) s) (l.foldl (relax nodes goal current) t) := by
  induction l with
  | nil => exact fun s t h => h
  | cons z l ih =>
    intro s t h
    exact ih _ _ (relax_stateEquiv nodes goal current s t h z)

/-- **C8**: the search is deterministic: from any two run states over the
same graph that hold the same frontier entries (in any internal heap
arrangement) and the same ledgers, the loop either fails to terminate in
both or terminates in both with the same ledgers and the same found flag,
rendering the identical path and identical total cost. -/
theorem c8_deterministic (nodes : List (Int × Int)) (matrix : List (List Nat)) (goal : Nat) :
    ∀ (fuel : Nat) (s t : AState), StateEquiv s t →
      (searchLoop nodes matrix goal fuel s = none ∧
          searchLoop nodes matrix goal fuel t = none) ∨
        ∃ s' t', searchLoop nodes matrix goal fuel s = some s' ∧
          searchLoop nodes matrix goal fuel t = some t' ∧ StateEquiv s' t' ∧
          ∀ rfuel, render goal rfuel s' = render goal rfuel t' := by
  intro fuel
  induction fuel with
  | zero =>
    intro s t _
    left
    exact ⟨rfl, rfl⟩
  | succ f ih =>
    intro s t h
    obtain ⟨hf, hg, hp, hfd⟩ := h
    rw [searchLoop, searchLoop]
    rcases popMax_perm hf with ⟨hn1, hn2⟩ | ⟨e, r1, r2, hp1, hp2, hr⟩
    · rw [hn1, hn2]
      right
      refine ⟨s, t, rfl, rfl, ⟨hf, hg, hp, hfd⟩, fun rfuel => ?_⟩
      simp only [render, hg, hp, hfd]
    · rw [hp1, hp2]
      dsimp only
      by_cases hgoal : e.node = goal
      · rw [if_pos hgoal, if_pos hgoal]
        right
        refine ⟨_, _, rfl, rfl, ⟨hr, hg, hp, rfl⟩, fun rfuel => ?_⟩
        simp only [render, hg, hp]
      · rw [if_neg hgoal, if_neg hgoal]
        exact ih _ _ (foldl_relax_stateEquiv nodes goal e.node _ _ _ ⟨hr, hg, hp, hfd⟩)

/-- **C8** (witness): determinism evaluated on the single-node graph from
the initial state. -/
theorem c8_deterministic_witness :
    (searchLoop [(0, 0)] [[0]] 0 1 initState = none ∧
        searchLoop [(0, 0)] [[0]] 0 1 initState = none) ∨
      ∃ s' t', searchLoop [(0, 0)] [[0]] 0 1 initState = some s' ∧
        searchLoop [(0, 0)] [[0]] 0 1 initState = some t' ∧ StateEquiv s' t' ∧
        ∀ rfuel, render 0 rfuel s' = render 0 rfuel t' :=
  c8_deterministic [(0, 0)] [[0]] 0 1 initState initState
    ⟨List.Perm.refl _, rfl, rfl, rfl⟩

/-! ## C10: invariants of the search loop -/

theorem distance_self (nodes : List (Int × Int)) (a : Nat) : distance nodes a a = 0 := by
  simp [distance]

theorem adjacent_nodes_lt {matrix : List (List Nat)} {node n : Nat}
    (h : n ∈ adjacent_nodes matrix node) : n < matrix.length := by
  unfold adjacent_nodes at h
  rw [List.mem_filter, List.mem_range] at h
  exact h.1

theorem upd_self {β : Type} (f : Nat → Option β) (k : Nat) (v : β) : upd f k v k = some v := by
  simp [upd]

theorem upd_ne {β : Type} (f : Nat → Option β) (k n : Nat) (v : β) (h : ¬ n = k) :
    upd f k v n = f n := by
  simp [upd, h]

theorem upd_isSome {β : Type} (f : Nat → Option β) (k n : Nat) (v : β)
    (h : (f n).isSome = true) : (upd f k v n).isSome = true := by
  by_cases hn : n = k
  · subst hn; simp [upd]
  · rwa [upd_ne f k n v hn]

theorem transGen_upd_cases {m : Nat → Option Nat} {nb w : Nat} :
    ∀ {a b : Nat}, Relation.TransGen (prevRel (upd m nb w)) a b →
      Relation.TransGen (prevRel m) a b ∨
        (Relation.ReflTransGen (prevRel m) a nb ∧
          Relation.ReflTransGen (prevRel (upd m nb w)) w b) := by
  intro a b h
  induction h using Relation.TransGen.head_induction_on with
  | base hr =>
    rename_i x
    by_cases hx : x = nb
    · subst hx
      have hb : b = w := by
        unfold prevRel at hr
        rw [upd_self] at hr
        injection hr.symm
      right
      subst hb
      exact ⟨Relation.ReflTransGen.refl, Relation.ReflTransGen.refl⟩
    · left
      refine Relation.TransGen.single ?_
      unfold prevRel at hr ⊢
      rwa [upd_ne m nb x w hx] at hr
  | ih hr htg ihp =>
    rename_i x y
    by_cases hx : x = nb
    · subst hx
      have hy : y = w := by
        unfold prevRel at hr
        rw [upd_self] at hr
        injection hr.symm
      subst hy
      right
      exact ⟨Relation.ReflTransGen.refl, htg.to_reflTransGen⟩
    · have hm : prevRel m x y := by
        unfold prevRel at hr ⊢
        rwa [upd_ne m nb x w hx] at hr
      rcases ihp with htgm | ⟨h1, h2⟩
      · exact Or.inl (Relation.TransGen.head hm htgm)
      · exact Or.inr ⟨Relation.ReflTransGen.head hm h1, h2⟩

theorem rtg_upd_lift {m : Nat → Option Nat} {nb w : Nat} :
    ∀ {z : Nat}, Relation.ReflTransGen (prevRel m) z nb →
      Relation.ReflTransGen (prevRel (upd m nb w)) z nb ∨
        Relation.TransGen (prevRel m) nb nb := by
  intro z h
  induction h using Relation.ReflTransGen.head_induction_on with
  | refl => exact Or.inl Relation.ReflTransGen.refl
  | head hr hrest ihp =>
    rename_i x y
    by_cases hx : x = nb
    · subst hx
      exact Or.inr (Relation.TransGen.head' hr hrest)
    · rcases ihp with h1 | h1
      · refine Or.inl (Relation.ReflTransGen.head ?_ h1)
        unfold prevRel at hr ⊢
        rwa [upd_ne m nb x w hx]
      · exact Or.inr h1

theorem rtg_upd_end {m : Nat → Option Nat} {nb w : Nat} :
    ∀ {x : Nat}, Relation.ReflTransGen (prevRel (upd m nb w)) x nb →
      x = nb ∨ Relation.TransGen (prevRel m) x nb := by
  intro x h
  induction h using Relation.ReflTransGen.head_induction_on with
  | refl => exact Or.inl rfl
  | head hr hrest ihp =>
    rename_i a c
    by_cases ha : a = nb
    · exact Or.inl ha
    · have hm : prevRel m a c := by
        unfold prevRel at hr ⊢
        rwa [upd_ne m nb a w ha] at hr
      rcases ihp with rfl | htg
      · exact Or.inr (Relation.TransGen.single hm)
      · exact Or.inr (Relation.TransGen.head hm htg)

theorem rtg_prev_le {nodes : List (Int × Int)} {matrix : List (List Nat)} {s : AState}
    (inv : LoopInv nodes matrix s) :
    ∀ {a b : Nat}, Relation.ReflTransGen (prevRel s.prev_node) a b →
      ∀ ga, s.travelled_cost a = some ga → ∃ gb, s.travelled_cost b = some gb ∧ gb ≤ ga := by
  intro a b h
  induction h using Relation.ReflTransGen.head_induction_on with
  | refl => exact fun ga hga => ⟨ga, hga, le_rfl⟩
  | head hr hrest ihp =>
    rename_i x y
    intro ga hga
    obtain ⟨gx, gy, hgx, hgy, hle⟩ := inv.prev_le _ _ hr
    rw [hga] at hgx
    injection hgx with hxe
    obtain ⟨gb, hgb, hgble⟩ := ihp gy hgy
    refine ⟨gb, hgb, ?_⟩
    have hd := distance_nonneg nodes y x
    subst hxe
    linarith

theorem acyclic_upd {nodes : List (Int × Int)} {matrix : List (List Nat)} {s : AState}
    (inv : LoopInv nodes matrix s) {nb current : Nat} {gc : ℝ}
    (hgc : s.travelled_cost current = some gc) (hcn : ¬ current = nb)
    (hcond : s.travelled_cost nb = none ∨
      ∃ cnb, s.travelled_cost nb = some cnb ∧ gc + distance nodes current nb < cnb) :
    ∀ n, ¬ Relation.TransGen (prevRel (upd s.prev_node nb current)) n n := by
  intro n hcyc
  rcases transGen_upd_cases hcyc with htg | ⟨h1, h2⟩
  · exact inv.prev_acyclic n htg
  · rcases rtg_upd_lift h1 with h1' | hcycm
    · have h3 : Relation.ReflTransGen (prevRel (upd s.prev_node nb current)) current nb :=
        Relation.ReflTransGen.trans h2 h1'
      rcases rtg_upd_end h3 with he | htg
      · exact hcn he
      · obtain ⟨z, hz1, hz2⟩ := (Relation.TransGen.tail'_iff).mp htg
        have hnbdom := inv.prev_tgt _ _ hz2
        rcases hcond with hnone | ⟨cnb, hcnb, hlt⟩
        · rw [hnone] at hnbdom
          simp at hnbdom
        · obtain ⟨gb, hgb, hgble⟩ := rtg_prev_le inv htg.to_reflTransGen gc hgc
          rw [hcnb] at hgb
          injection hgb with he
          have hd := distance_nonneg nodes current nb
          subst he
          linarith
    · exact inv.prev_acyclic nb hcycm

theorem relax_loopInv {nodes : List (Int × Int)} {matrix : List (List Nat)} {s : AState}
    (inv : LoopInv nodes matrix s) {goal current nb : Nat}
    (hdom : (s.travelled_cost current).isSome = true)
    (hreach : Reachable matrix 0 current)
    (hnb : nb ∈ adjacent_nodes matrix current) :
    LoopInv nodes matrix (relax nodes goal current s nb) := by
  obtain ⟨gc, hgc⟩ := Option.isSome_iff_exists.mp hdom
  by_cases hup : s.travelled_cost nb = none ∨
      ∃ cnb, s.travelled_cost nb = some cnb ∧ gc + distance nodes current nb < cnb
  · have hgc0 : 0 ≤ gc := inv.cost_nonneg current gc hgc
    have hd0 := distance_nonneg nodes current nb
    have hcn : ¬ current = nb := by
      intro he
      rw [he] at hgc
      rcases hup with hnone | ⟨cnb, hcnb, hlt⟩
      · rw [hgc] at hnone
        exact Option.noConfusion hnone
      · rw [hgc] at hcnb
        injection hcnb with he2
        rw [he, distance_self] at hlt
        rw [← he2] at hlt
        linarith
    have h0 : ¬ nb = 0 := by
      intro he
      rcases hup with hnone | ⟨cnb, hcnb, hlt⟩
      · rw [he, inv.start_cost] at hnone
        exact Option.noConfusion hnone
      · rw [he, inv.start_cost] at hcnb
        injection hcnb with he2
        rw [← he2] at hlt
        linarith
    have h0s : ¬ (0 : Nat) = nb := fun h => h0 h.symm
    have htemp0 : 0 ≤ gc + distance nodes current nb := by linarith
    rw [relax_eq_of_improve nodes goal current nb s gc hgc hup]
    refine ⟨?_, ?_, ?_, ?_, ?_, ?_, ?_, ?_, ?_, ?_, ?_⟩
    · dsimp only
      rw [upd_ne _ _ _ _ h0s]
      exact inv.start_cost
    · intro n v hv
      dsimp only at hv
      by_cases hn : n = nb
      · rw [hn, upd_self] at hv
        injection hv with he
        rw [← he]
        exact htemp0
      · rw [upd_ne _ _ _ _ hn] at hv
        exact inv.cost_nonneg n v hv
    · intro e he
      dsimp only at he ⊢
      rcases List.mem_cons.mp he with rfl | he
      · dsimp only
        rw [upd_self]
        rfl
      · exact upd_isSome _ _ _ _ (inv.frontier_dom e he)
    · intro n hs
      dsimp only at hs
      by_cases hn : n = nb
      · rw [hn]
        exact Or.inr (adjacent_nodes_lt hnb)
      · rw [upd_ne _ _ _ _ hn] at hs
        exact inv.dom_lt n hs
    · intro x y hxy
      dsimp only at hxy ⊢
      by_cases hx : x = nb
      · rw [hx, upd_self]
        rfl
      · rw [upd_ne _ _ _ _ hx] at hxy
        exact upd_isSome _ _ _ _ (inv.prev_src x y hxy)
    · intro x y hxy
      dsimp only at hxy ⊢
      by_cases hx : x = nb
      · rw [hx, upd_self] at hxy
        injection hxy with hy
        rw [← hy]
        exact upd_isSome _ _ _ _ hdom
      · rw [upd_ne _ _ _ _ hx] at hxy
        exact upd_isSome _ _ _ _ (inv.prev_tgt x y hxy)
    · dsimp only
      rw [upd_ne _ _ _ _ h0s]
      exact inv.prev_start
    · intro n hs hne
      dsimp only at hs ⊢
      by_cases hn : n = nb
      · rw [hn, upd_self]
        rfl
      · rw [upd_ne _ _ _ _ hn] at hs
        exact upd_isSome _ _ _ _ (inv.prev_defined n hs hne)
    · intro x y hxy
      dsimp only at hxy ⊢
      by_cases hx : x = nb
      · rw [hx, upd_self] at hxy
        injection hxy with hy
        refine ⟨gc + distance nodes current nb, gc, ?_, ?_, ?_⟩
        · rw [hx, upd_self]
        · rw [← hy, upd_ne _ _ _ _ hcn]
          exact hgc
        · rw [← hy, hx]
      · rw [upd_ne _ _ _ _ hx] at hxy
        obtain ⟨gx, gy, hgx, hgy, hle⟩ := inv.prev_le x y hxy
        by_cases hy : y = nb
        · rcases hup with hnone | ⟨cnb, hcnb, hlt⟩
          · rw [hy, hnone] at hgy
            exact Option.noConfusion hgy
          · rw [hy, hcnb] at hgy
            injection hgy with he2
            refine ⟨gx, gc + distance nodes current nb, ?_, ?_, ?_⟩
            · rw [upd_ne _ _ _ _ hx]
              exact hgx
            · rw [hy, upd_self]
            · rw [he2] at hlt
              linarith
        · refine ⟨gx, gy, ?_, ?_, hle⟩
          · rw [upd_ne _ _ _ _ hx]
            exact hgx
          · rw [upd_ne _ _ _ _ hy]
            exact hgy
    · dsimp only
      exact acyclic_upd inv hgc hcn hup
    · intro n hs
      dsimp only at hs
      by_cases hn : n = nb
      · rw [hn]
        exact Relation.ReflTransGen.tail hreach hnb
      · rw [upd_ne _ _ _ _ hn] at hs
        exact inv.reach n hs
  · push_neg at hup
    obtain ⟨hns, hnlt⟩ := hup
    obtain ⟨cnb, hcnb⟩ := Option.ne_none_iff_exists.mp hns
    rw [relax_eq_of_no_improve nodes goal current nb s gc hgc cnb hcnb.symm
      (not_lt.mpr (hnlt cnb hcnb.symm))]
    exact inv

theorem relax_isSome_mono (nodes : List (Int × Int)) (goal current : Nat) (s : AState)
    (nb n : Nat) (h : (s.travelled_cost n).isSome = true) :
    ((relax nodes goal current s nb).travelled_cost n).isSome = true := by
  obtain ⟨v, hv⟩ := Option.isSome_iff_exists.mp h
  obtain ⟨v', hv', _⟩ := relax_travelled_mono nodes goal current nb s n v hv
  rw [hv']
  rfl

theorem foldl_relax_loopInv {nodes : List (Int × Int)} {matrix : List (List Nat)}
    {goal current : Nat} (hreach : Reachable matrix 0 current) :
    ∀ (l : List Nat), (∀ nb ∈ l, nb ∈ adjacent_nodes matrix current) →
      ∀ s : AState, LoopInv nodes matrix s → (s.travelled_cost current).isSome = true →
        LoopInv nodes matrix (l.foldl (relax nodes goal current) s) := by
  intro l
  induction l with
  | nil => exact fun _ s inv _ => inv
  | cons z l ih =>
    intro hl s inv hdom
    exact ih (fun nb h => hl nb (List.mem_cons_of_mem _ h)) _
      (relax_loopInv inv hdom hreach (hl z (List.mem_cons_self _ _)))
      (relax_isSome_mono nodes goal current s z current hdom)

theorem loopInv_replace_frontier {nodes : List (Int × Int)} {matrix : List (List Nat)}
    {s : AState} (inv : LoopInv nodes matrix s) (fr : List NodeCost) (b : Bool)
    (hsub : ∀ e ∈ fr, e ∈ s.frontier) :
    LoopInv nodes matrix { s with frontier := fr, found := b } := by
  refine ⟨inv.start_cost, inv.cost_nonneg, ?_, inv.dom_lt, inv.prev_src, inv.prev_tgt,
    inv.prev_start, inv.prev_defined, inv.prev_le, inv.prev_acyclic, inv.reach⟩
  intro e he
  exact inv.frontier_dom e (hsub e he)

theorem searchLoop_loopInv {nodes : List (Int × Int)} {matrix : List (List Nat)} {goal : Nat} :
    ∀ (fuel : Nat) (s s' : AState), LoopInv nodes matrix s →
      searchLoop nodes matrix goal fuel s = some s' → LoopInv nodes matrix s' := by
  intro fuel
  induction fuel with
  | zero => intro s s' _ h; simp [searchLoop] at h
  | succ f ih =>
    intro s s' inv h
    rw [searchLoop] at h
    cases hp : popMax s.frontier with
    | none =>
      rw [hp] at h
      injection h with h
      rw [← h]
      exact inv
    | some pr =>
      obtain ⟨current, rest⟩ := pr
      rw [hp] at h
      dsimp only at h
      have hmem := popMax_mem hp
      have hsub : ∀ e ∈ rest, e ∈ s.frontier := by
        intro e he
        rw [hmem.2] at he
        exact List.erase_subset _ _ he
      by_cases hg : current.node = goal
      · rw [if_pos hg] at h
        injection h with h
        rw [← h]
        exact loopInv_replace_frontier inv rest true hsub
      · rw [if_neg hg] at h
        have hcur_dom : (s.travelled_cost current.node).isSome = true :=
          inv.frontier_dom current hmem.1
        have hreach : Reachable matrix 0 current.node := inv.reach _ hcur_dom
        have inv2 : LoopInv nodes matrix { s with frontier := rest } :=
          loopInv_replace_frontier inv rest s.found hsub
        exact ih _ _ (foldl_relax_loopInv hreach _ (fun nb hh => hh) _ inv2 hcur_dom) h

theorem runSteps_loopInv {nodes : List (Int × Int)} {matrix : List (List Nat)} {goal : Nat} :
    ∀ (k : Nat) (s : AState), LoopInv nodes matrix s →
      LoopInv nodes matrix (runSteps nodes matrix goal k s) := by
  intro k
  induction k with
  | zero => exact fun s inv => inv
  | succ f ih =>
    intro s inv
    rw [runSteps]
    cases hp : popMax s.frontier with
    | none => exact inv
    | some pr =>
      obtain ⟨current, rest⟩ := pr
      dsimp only
      have hmem := popMax_mem hp
      have hsub : ∀ e ∈ rest, e ∈ s.frontier := by
        intro e he
        rw [hmem.2] at he
        exact List.erase_subset _ _ he
      by_cases hg : current.node = goal
      · rw [if_pos hg]
        exact loopInv_replace_frontier inv rest true hsub
      · rw [if_neg hg]
        have hcur_dom : (s.travelled_cost current.node).isSome = true :=
          inv.frontier_dom current hmem.1
        have hreach : Reachable matrix 0 current.node := inv.reach _ hcur_dom
        have inv2 : LoopInv nodes matrix { s with frontier := rest } :=
          loopInv_replace_frontier inv rest s.found hsub
        exact ih _ (foldl_relax_loopInv hreach _ (fun nb hh => hh) _ inv2 hcur_dom)

theorem initState_loopInv (nodes : List (Int × Int)) (matrix : List (List Nat)) :
    LoopInv nodes matrix initState := by
  refine ⟨rfl, ?_, ?_, ?_, ?_, ?_, rfl, ?_, ?_, ?_, ?_⟩
  · intro n v hv
    dsimp only [initState] at hv
    by_cases hn : n = 0
    · rw [if_pos hn] at hv
      injection hv with he
      rw [← he]
    · rw [if_neg hn] at hv
      exact Option.noConfusion hv
  · intro e he
    dsimp only [initState] at he ⊢
    rcases List.mem_cons.mp he with rfl | he
    · rfl
    · exact absurd he (List.not_mem_nil _)
  · intro n hs
    dsimp only [initState] at hs
    by_cases hn : n = 0
    · exact Or.inl hn
    · rw [if_neg hn] at hs
      simp at hs
  · intro x y hxy
    exact Option.noConfusion hxy
  · intro x y hxy
    exact Option.noConfusion hxy
  · intro n hs hne
    dsimp only [initState] at hs
    rw [if_neg hne] at hs
    simp at hs
  · intro x y hxy
    exact Option.noConfusion hxy
  · intro n h
    cases h with
    | single hr => exact Option.noConfusion hr
    | tail _ hr => exact Option.noConfusion hr
  · intro n hs
    dsimp only [initState] at hs
    by_cases hn : n = 0
    · rw [hn]
      exact Relation.ReflTransGen.refl
    · rw [if_neg hn] at hs
      simp at hs

theorem stepN_add (m : Nat → Option Nat) : ∀ (a b c : Nat),
    stepN m (a + b) c = (stepN m a c).bind (fun x => stepN m b x) := by
  intro a
  induction a with
  | zero => intro b c; simp [stepN]
  | succ a ih =>
    intro b c
    have hrw : a + 1 + b = (a + b) + 1 := by omega
    rw [hrw]
    cases hc : m c with
    | none => simp [stepN, hc]
    | some x => simp [stepN, hc, ih b x]

theorem stepN_isSome_rtg (m : Nat → Option Nat) : ∀ (k c t : Nat), stepN m k c = some t →
    Relation.ReflTransGen (prevRel m) c t := by
  intro k
  induction k with
  | zero =>
    intro c t h
    injection h with h
    rw [← h]
  | succ k ih =>
    intro c t h
    cases hc : m c with
    | none => rw [stepN, hc] at h; exact Option.noConfusion h
    | some x =>
      rw [stepN, hc] at h
      exact Relation.ReflTransGen.head hc (ih x t h)

theorem cycle_of_stepN (m : Nat → Option Nat) (k c : Nat) (hk : 0 < k)
    (h : stepN m k c = some c) : Relation.TransGen (prevRel m) c c := by
  cases k with
  | zero => omega
  | succ k =>
    cases hc : m c with
    | none => rw [stepN, hc] at h; exact Option.noConfusion h
    | some x =>
      rw [stepN, hc] at h
      exact Relation.TransGen.head' hc (stepN_isSome_rtg m k x c h)

theorem stepN_dom (g : Nat → Option ℝ) (m : Nat → Option Nat)
    (htgt : ∀ x y, m x = some y → (g y).isSome = true) :
    ∀ (k c t : Nat), stepN m k c = some t → (g c).isSome = true → (g t).isSome = true := by
  intro k
  induction k with
  | zero =>
    intro c t h hc
    injection h with h
    rw [← h]
    exact hc
  | succ k ih =>
    intro c t h hc
    cases hmc : m c with
    | none => rw [stepN, hmc] at h; exact Option.noConfusion h
    | some x =>
      rw [stepN, hmc] at h
      exact ih x t h (htgt c x hmc)

theorem exists_terminal (m : Nat → Option Nat) (N : Nat) (start : Nat)
    (hstart : start < N) (htgt : ∀ x y, m x = some y → y < N)
    (hacyc : ∀ n, ¬ Relation.TransGen (prevRel m) n n) :
    ∃ k, k ≤ N ∧ ∃ t, stepN m k start = some t ∧ m t = none := by
  by_contra hcon
  push_neg at hcon
  have hdef : ∀ k, k ≤ N + 1 → ∃ t, stepN m k start = some t ∧ t < N := by
    intro k
    induction k with
    | zero => intro _; exact ⟨start, rfl, hstart⟩
    | succ k ih =>
      intro hk
      obtain ⟨t, ht, htN⟩ := ih (by omega)
      have hmt : m t ≠ none := hcon k (by omega) t ht
      obtain ⟨u, hu⟩ := Option.ne_none_iff_exists.mp hmt
      refine ⟨u, ?_, htgt t u hu.symm⟩
      rw [stepN_add m k 1 start, ht]
      simp [stepN, hu.symm]
  have hcyc : ∀ i j, i < j → j ≤ N + 1 →
      (stepN m i start).getD 0 = (stepN m j start).getD 0 → False := by
    intro i j hij hjN hgd
    obtain ⟨ti, hti, _⟩ := hdef i (by omega)
    obtain ⟨tj, htj, _⟩ := hdef j (by omega)
    rw [hti, htj] at hgd
    simp only [Option.getD_some] at hgd
    have hsplit : stepN m (i + (j - i)) start = some tj := by
      rw [show i + (j - i) = j by omega, htj]
    rw [stepN_add, hti] at hsplit
    simp only [Option.some_bind] at hsplit
    rw [hgd] at hsplit
    exact hacyc tj (cycle_of_stepN m (j - i) tj (by omega) hsplit)
  have hmap : ∀ k ∈ Finset.range (N + 2), ((stepN m k start).getD 0) ∈ Finset.range (N + 1) := by
    intro k hk
    rw [Finset.mem_range] at hk
    obtain ⟨t, ht, htN⟩ := hdef k (by omega)
    rw [ht]
    simp only [Option.getD_some, Finset.mem_range]
    omega
  have hcard : (Finset.range (N + 1)).card < (Finset.range (N + 2)).card := by simp
  obtain ⟨i, hi, j, hj, hne, heq⟩ :=
    Finset.exists_ne_map_eq_of_card_lt_of_maps_to hcard hmap
  rw [Finset.mem_range] at hi hj
  rcases Nat.lt_or_ge i j with hij | hij
  · exact hcyc i j hij (by omega) heq
  · have hij2 : j < i := by omega
    exact hcyc j i hij2 (by omega) heq.symm

theorem reconstructFuel_end (m : Nat → Option Nat) :
    ∀ (k fuel cur : Nat) (rest : List Nat) (t : Nat), stepN m k cur = some t → m t = none →
      k < fuel →
      ∃ tail, reconstructFuel m fuel cur ((cur + 1) :: rest) = some ((t + 1) :: tail) := by
  intro k
  induction k with
  | zero =>
    intro fuel cur rest t h hmt hk
    injection h with h
    cases fuel with
    | zero => omega
    | succ f =>
      rw [← h] at hmt
      refine ⟨rest, ?_⟩
      rw [reconstructFuel, hmt, h]
  | succ k ih =>
    intro fuel cur rest t h hmt hk
    cases hc : m cur with
    | none => rw [stepN, hc] at h; exact Option.noConfusion h
    | some x =>
      rw [stepN, hc] at h
      cases fuel with
      | zero => omega
      | succ f =>
        obtain ⟨tail, htail⟩ := ih f x ((cur + 1) :: rest) t h hmt (by omega)
        refine ⟨tail, ?_⟩
        rw [reconstructFuel, hc]
        exact htail

theorem relax_found (nodes : List (Int × Int)) (goal current : Nat) (s : AState) (nb : Nat) :
    (relax nodes goal current s nb).found = s.found := by
  cases hnb : s.travelled_cost nb with
  | none => simp only [relax, hnb]
  | some c =>
    simp only [relax, hnb]
    split
    · rfl
    · rfl

theorem foldl_relax_found (nodes : List (Int × Int)) (goal current : Nat) :
    ∀ (l : List Nat) (s : AState), (l.foldl (relax nodes goal current) s).found = s.found := by
  intro l
  induction l with
  | nil => exact fun s => rfl
  | cons z l ih =>
    intro s
    rw [List.foldl_cons, ih, relax_found]

theorem searchLoop_found_goal_dom {nodes : List (Int × Int)} {matrix : List (List Nat)}
    {goal : Nat} :
    ∀ (fuel : Nat) (s s' : AState), LoopInv nodes matrix s → s.found = false →
      searchLoop nodes matrix goal fuel s = some s' → s'.found = true →
      (s'.travelled_cost goal).isSome = true := by
  intro fuel
  induction fuel with
  | zero => intro s s' _ _ h; simp [searchLoop] at h
  | succ f ih =>
    intro s s' inv hsf h hfound
    rw [searchLoop] at h
    cases hp : popMax s.frontier with
    | none =>
      rw [hp] at h
      injection h with h
      rw [← h] at hfound
      rw [hsf] at hfound
      exact Bool.noConfusion hfound
    | some pr =>
      obtain ⟨current, rest⟩ := pr
      rw [hp] at h
      dsimp only at h
      have hmem := popMax_mem hp
      by_cases hg : current.node = goal
      · rw [if_pos hg] at h
        injection h with h
        have hdom : (s.travelled_cost current.node).isSome = true :=
          inv.frontier_dom current hmem.1
        rw [← h]
        rw [← hg]
        exact hdom
      · rw [if_neg hg] at h
        have hsub : ∀ e ∈ rest, e ∈ s.frontier := by
          intro e he
          rw [hmem.2] at he
          exact List.erase_subset _ _ he
        have hcur_dom : (s.travelled_cost current.node).isSome = true :=
          inv.frontier_dom current hmem.1
        have hreach : Reachable matrix 0 current.node := inv.reach _ hcur_dom
        have inv2 : LoopInv nodes matrix { s with frontier := rest } :=
          loopInv_replace_frontier inv rest s.found hsub
        refine ih _ _ (foldl_relax_loopInv hreach _ (fun nb hh => hh) _ inv2 hcur_dom) ?_ h hfound
        rw [foldl_relax_found]
        exact hsf

/-- **C10**: the start node (index 0) is never assigned a predecessor at any
point of the search; consequently, in every completed run that found the
goal, the predecessor walk from the goal terminates at the start node and
the reconstructed path's first element is 1. -/
theorem c10_start_no_predecessor (nodes : List (Int × Int)) (matrix : List (List Nat))
    (hmn : matrix.length = nodes.length) (h1 : 1 ≤ nodes.length) :
    (∀ k, (runSteps nodes matrix (nodes.length - 1) k initState).prev_node 0 = none) ∧
      (∀ fuel s', searchLoop nodes matrix (nodes.length - 1) fuel initState = some s' →
        s'.found = true →
        ∃ path, reconstructFuel s'.prev_node (nodes.length + 1) (nodes.length - 1)
          [nodes.length - 1 + 1] = some path ∧ path.head? = some 1) := by
  constructor
  · intro k
    exact (runSteps_loopInv k initState (initState_loopInv nodes matrix)).prev_start
  · intro fuel s' hrun hfound
    have inv' := searchLoop_loopInv fuel initState s' (initState_loopInv nodes matrix) hrun
    have hgoal_dom : (s'.travelled_cost (nodes.length - 1)).isSome = true :=
      searchLoop_found_goal_dom fuel initState s' (initState_loopInv nodes matrix) rfl
        hrun hfound
    have hstart_lt : nodes.length - 1 < matrix.length := by omega
    have htgt : ∀ x y, s'.prev_node x = some y → y < matrix.length := by
      intro x y h
      rcases inv'.dom_lt y (inv'.prev_tgt x y h) with h0 | hlt
      · omega
      · exact hlt
    obtain ⟨k, hkN, t, hstep, hmt⟩ :=
      exists_terminal s'.prev_node matrix.length (nodes.length - 1) hstart_lt htgt
        inv'.prev_acyclic
    have htdom : (s'.travelled_cost t).isSome = true :=
      stepN_dom s'.travelled_cost s'.prev_node inv'.prev_tgt k (nodes.length - 1) t
        hstep hgoal_dom
    have ht0 : t = 0 := by
      by_contra hne
      have hds := inv'.prev_defined t htdom hne
      rw [hmt] at hds
      simp at hds
    obtain ⟨tail, htail⟩ := reconstructFuel_end s'.prev_node k (nodes.length + 1)
      (nodes.length - 1) [] t hstep hmt (by omega)
    refine ⟨(t + 1) :: tail, htail, ?_⟩
    rw [ht0]
    rfl

/-- **C10** (witness): evaluated on the single-node graph. -/
theorem c10_start_no_predecessor_witness :
    (∀ k, (runSteps [(0, 0)] [[0]] (([(0, 0)] : List (Int × Int)).length - 1) k
        initState).prev_node 0 = none) ∧
      (∀ fuel s', searchLoop [(0, 0)] [[0]] (([(0, 0)] : List (Int × Int)).length - 1) fuel
          initState = some s' →
        s'.found = true →
        ∃ path, reconstructFuel s'.prev_node (([(0, 0)] : List (Int × Int)).length + 1)
          (([(0, 0)] : List (Int × Int)).length - 1)
          [([(0, 0)] : List (Int × Int)).length - 1 + 1] = some path ∧
          path.head? = some 1) :=
  c10_start_no_predecessor [(0, 0)] [[0]] rfl (Nat.le_refl 1)

/-! ## C1: the truncated keys lose optimality on a concrete graph -/

theorem searchLoop_step_eq (nodes : List (Int × Int)) (matrix : List (List Nat))
    (goal fuel : Nat) (s : AState) (current : NodeCost) (rest : List NodeCost)
    (hp : popMax s.frontier = some (current, rest)) (hg : ¬ current.node = goal) :
    searchLoop nodes matrix goal (fuel + 1) s =
      searchLoop nodes matrix goal fuel
        ((adjacent_nodes matrix current.node).foldl (relax nodes goal current.node)
          { s with frontier := rest }) := by
  rw [searchLoop, hp]
  dsimp only
  rw [if_neg hg]

theorem searchLoop_goal_eq (nodes : List (Int × Int)) (matrix : List (List Nat))
    (goal fuel : Nat) (s : AState) (current : NodeCost) (rest : List NodeCost)
    (hp : popMax s.frontier = some (current, rest)) (hg : current.node = goal) :
    searchLoop nodes matrix goal (fuel + 1) s =
      some { s with frontier := rest, found := true } := by
  rw [searchLoop, hp]
  dsimp only
  rw [if_pos hg]

theorem ex_d01 : distance exNodes 0 1 = 4 := by
  simp only [distance, exNodes, List.getD_cons_zero, List.getD_cons_succ]
  norm_num
  rw [show (16 : ℝ) = 4 ^ 2 by norm_num]
  exact Real.sqrt_sq (by norm_num)

theorem ex_d12 : distance exNodes 1 2 = 4 := by
  simp only [distance, exNodes, List.getD_cons_zero, List.getD_cons_succ]
  norm_num
  rw [show (16 : ℝ) = 4 ^ 2 by norm_num]
  exact Real.sqrt_sq (by norm_num)

theorem ex_d24 : distance exNodes 2 4 = 4 := by
  simp only [distance, exNodes, List.getD_cons_zero, List.getD_cons_succ]
  norm_num
  rw [show (16 : ℝ) = 4 ^ 2 by norm_num]
  exact Real.sqrt_sq (by norm_num)

theorem ex_d14 : distance exNodes 1 4 = 8 := by
  simp only [distance, exNodes, List.getD_cons_zero, List.getD_cons_succ]
  norm_num
  rw [show (64 : ℝ) = 8 ^ 2 by norm_num]
  exact Real.sqrt_sq (by norm_num)

theorem ex_d03 : distance exNodes 0 3 = Real.sqrt 40 := by
  simp only [distance, exNodes, List.getD_cons_zero, List.getD_cons_succ]
  norm_num

theorem ex_d30 : distance exNodes 3 0 = Real.sqrt 40 := by
  simp only [distance, exNodes, List.getD_cons_zero, List.getD_cons_succ]
  norm_num

theorem ex_d34 : distance exNodes 3 4 = Real.sqrt 40 := by
  simp only [distance, exNodes, List.getD_cons_zero, List.getD_cons_succ]
  norm_num

theorem ex_d44 : distance exNodes 4 4 = 0 := distance_self exNodes 4

theorem sqrt40_ge : (6 : ℝ) ≤ Real.sqrt 40 := by
  rw [show (6 : ℝ) = Real.sqrt 36 by
    rw [show (36 : ℝ) = 6 ^ 2 by norm_num]
    exact (Real.sqrt_sq (by norm_num)).symm]
  exact Real.sqrt_le_sqrt (by norm_num)

theorem sqrt40_gt : (6 : ℝ) < Real.sqrt 40 := by
  rw [show (6 : ℝ) = Real.sqrt 36 by
    rw [show (36 : ℝ) = 6 ^ 2 by norm_num]
    exact (Real.sqrt_sq (by norm_num)).symm]
  exact Real.sqrt_lt_sqrt (by norm_num) (by norm_num)

theorem sqrt40_lt : Real.sqrt 40 < 6.5 := (Real.sqrt_lt' (by norm_num)).mpr (by norm_num)

/-- **C1**: on the 5-node graph `exNodes`/`exMatrix` the search terminates
in the Found state and reports cost `√40 + √40 = 4√10 ≈ 12.649` along the
path 1-4-5, although the graph contains the path through nodes 0,1,2,4 of
total Euclidean cost 12 < 4√10.  The reported cost is not the minimum over
paths from start to goal: truncating the ordering keys makes the goal entry
tie at key 12 with the cheaper route's entries, and the tie-break pops the
goal (the largest node index) first. -/
theorem c1_found_cost_not_minimal :
    runSearch exNodes exMatrix 10 10 =
        some (SearchOutcome.pathFound [1, 4, 5] (Real.sqrt 40 + Real.sqrt 40)) ∧
      stepsTo exMatrix 0 1 ∧ stepsTo exMatrix 1 2 ∧ stepsTo exMatrix 2 4 ∧
      pathCost exNodes [0, 1, 2, 4] = 12 ∧
      (12 : ℝ) < Real.sqrt 40 + Real.sqrt 40 := by
  have f148 : (⌊(0 : ℝ) + 4 + 8⌋₊ : Nat) = 12 := by norm_num
  have f40a : (⌊(0 : ℝ) + Real.sqrt 40 + Real.sqrt 40⌋₊ : Nat) = 12 := by
    rw [Nat.floor_eq_iff (by positivity)]
    constructor
    · push_cast
      linarith [sqrt40_ge]
    · push_cast
      linarith [sqrt40_lt]
  have f40b : (⌊(0 : ℝ) + Real.sqrt 40 + Real.sqrt 40 + 0⌋₊ : Nat) = 12 := by
    rw [Nat.floor_eq_iff (by positivity)]
    constructor
    · push_cast
      linarith [sqrt40_ge]
    · push_cast
      linarith [sqrt40_lt]
  have hr1 : relax exNodes 4 0 { initState with frontier := [] } 1 =
      { frontier := [⟨12, 1⟩],
        travelled_cost := upd initState.travelled_cost 1 ((0 : ℝ) + 4),
        prev_node := upd initState.prev_node 1 0,
        found := false } := by
    rw [relax_eq_of_improve exNodes 4 0 1 { initState with frontier := [] } 0 rfl (Or.inl rfl)]
    rw [ex_d01, ex_d14, f148]
    exact rfl
  have hr2 : relax exNodes 4 0
      { frontier := [⟨12, 1⟩],
        travelled_cost := upd initState.travelled_cost 1 ((0 : ℝ) + 4),
        prev_node := upd initState.prev_node 1 0,
        found := false } 3 =
      { frontier := [⟨12, 3⟩, ⟨12, 1⟩],
        travelled_cost := upd (upd initState.travelled_cost 1 ((0 : ℝ) + 4)) 3
          ((0 : ℝ) + Real.sqrt 40),
        prev_node := upd (upd initState.prev_node 1 0) 3 0,
        found := false } := by
    rw [relax_eq_of_improve exNodes 4 0 3
      { frontier := [⟨12, 1⟩],
        travelled_cost := upd initState.travelled_cost 1 ((0 : ℝ) + 4),
        prev_node := upd initState.prev_node 1 0,
        found := false } 0 rfl (Or.inl rfl)]
    rw [ex_d03, ex_d34, f40a]
  have hr3 : relax exNodes 4 3
      { frontier := [⟨12, 1⟩],
        travelled_cost := upd (upd initState.travelled_cost 1 ((0 : ℝ) + 4)) 3
          ((0 : ℝ) + Real.sqrt 40),
        prev_node := upd (upd initState.prev_node 1 0) 3 0,
        found := false } 0 =
      { frontier := [⟨12, 1⟩],
        travelled_cost := upd (upd initState.travelled_cost 1 ((0 : ℝ) + 4)) 3
          ((0 : ℝ) + Real.sqrt 40),
        prev_node := upd (upd initState.prev_node 1 0) 3 0,
        found := false } := by
    rw [relax_eq_of_no_improve exNodes 4 3 0
      { frontier := [⟨12, 1⟩],
        travelled_cost := upd (upd initState.travelled_cost 1 ((0 : ℝ) + 4)) 3
          ((0 : ℝ) + Real.sqrt 40),
        prev_node := upd (upd initState.prev_node 1 0) 3 0,
        found := false } ((0 : ℝ) + Real.sqrt 40) rfl 0 rfl ?hnot]
    case hnot =>
      rw [ex_d30]
      refine not_lt.mpr ?_
      have h40 := Real.sqrt_nonneg (40 : ℝ)
      linarith
  have hr4 : relax exNodes 4 3
      { frontier := [⟨12, 1⟩],
        travelled_cost := upd (upd initState.travelled_cost 1 ((0 : ℝ) + 4)) 3
          ((0 : ℝ) + Real.sqrt 40),
        prev_node := upd (upd initState.prev_node 1 0) 3 0,
        found := false } 4 =
      { frontier := [⟨12, 4⟩, ⟨12, 1⟩],
        travelled_cost := upd (upd (upd initState.travelled_cost 1 ((0 : ℝ) + 4)) 3
          ((0 : ℝ) + Real.sqrt 40)) 4 ((0 : ℝ) + Real.sqrt 40 + Real.sqrt 40),
        prev_node := upd (upd (upd initState.prev_node 1 0) 3 0) 4 3,
        found := false } := by
    rw [relax_eq_of_improve exNodes 4 3 4
      { frontier := [⟨12, 1⟩],
        travelled_cost := upd (upd initState.travelled_cost 1 ((0 : ℝ) + 4)) 3
          ((0 : ℝ) + Real.sqrt 40),
        prev_node := upd (upd initState.prev_node 1 0) 3 0,
        found := false } ((0 : ℝ) + Real.sqrt 40) rfl (Or.inl rfl)]
    rw [ex_d34, ex_d44, f40b]
  have htrace : searchLoop exNodes exMatrix 4 10 initState =
      some { frontier := [⟨12, 1⟩],
             travelled_cost := upd (upd (upd initState.travelled_cost 1 ((0 : ℝ) + 4)) 3
               ((0 : ℝ) + Real.sqrt 40)) 4 ((0 : ℝ) + Real.sqrt 40 + Real.sqrt 40),
             prev_node := upd (upd (upd initState.prev_node 1 0) 3 0) 4 3,
             found := true } := by
    have h10 : (10 : Nat) = 9 + 1 := rfl
    rw [h10, searchLoop_step_eq exNodes exMatrix 4 9 initState ⟨0, 0⟩ [] rfl (by decide)]
    dsimp only
    have hadj0 : adjacent_nodes exMatrix 0 = [1, 3] := rfl
    rw [hadj0, List.foldl_cons, List.foldl_cons, List.foldl_nil, hr1, hr2]
    have h9 : (9 : Nat) = 8 + 1 := rfl
    rw [h9, searchLoop_step_eq exNodes exMatrix 4 8
      { frontier := [⟨12, 3⟩, ⟨12, 1⟩],
        travelled_cost := upd (upd initState.travelled_cost 1 ((0 : ℝ) + 4)) 3
          ((0 : ℝ) + Real.sqrt 40),
        prev_node := upd (upd initState.prev_node 1 0) 3 0,
        found := false } ⟨12, 3⟩ [⟨12, 1⟩] rfl (by decide)]
    dsimp only
    have hadj3 : adjacent_nodes exMatrix 3 = [0, 4] := rfl
    rw [hadj3, List.foldl_cons, List.foldl_cons, List.foldl_nil, hr3, hr4]
    have h8 : (8 : Nat) = 7 + 1 := rfl
    rw [h8, searchLoop_goal_eq exNodes exMatrix 4 7
      { frontier := [⟨12, 4⟩, ⟨12, 1⟩],
        travelled_cost := upd (upd (upd initState.travelled_cost 1 ((0 : ℝ) + 4)) 3
          ((0 : ℝ) + Real.sqrt 40)) 4 ((0 : ℝ) + Real.sqrt 40 + Real.sqrt 40),
        prev_node := upd (upd (upd initState.prev_node 1 0) 3 0) 4 3,
        found := false } ⟨12, 4⟩ [⟨12, 1⟩] rfl rfl]
  refine ⟨?_, ?_, ?_, ?_, ?_, ?_⟩
  · unfold runSearch
    have hlen : exNodes.length - 1 = 4 := rfl
    rw [hlen, htrace]
    dsimp only
    unfold render
    dsimp only
    rw [if_pos rfl]
    have hrec : reconstructFuel (upd (upd (upd initState.prev_node 1 0) 3 0) 4 3) 10 4
        [4 + 1] = some [1, 4, 5] := rfl
    rw [hrec]
    dsimp only
    have hv : (upd (upd (upd initState.travelled_cost 1 ((0 : ℝ) + 4)) 3
        ((0 : ℝ) + Real.sqrt 40)) 4 ((0 : ℝ) + Real.sqrt 40 + Real.sqrt 40)) 4 =
        some ((0 : ℝ) + Real.sqrt 40 + Real.sqrt 40) := rfl
    rw [hv]
    norm_num
  · show (1 : Nat) ∈ adjacent_nodes exMatrix 0
    decide
  · show (2 : Nat) ∈ adjacent_nodes exMatrix 1
    decide
  · show (4 : Nat) ∈ adjacent_nodes exMatrix 2
    decide
  · simp only [pathCost]
    rw [ex_d01, ex_d12, ex_d24]
    norm_num
  · linarith [sqrt40_gt]

/-! ## C6: termination of the loop and the no-path outcome -/

theorem sumW_nonneg (nodes : List (Int × Int)) (N : Nat) : 0 ≤ sumW nodes N :=
  Finset.sum_nonneg (fun p _ => distance_nonneg nodes p.1 p.2)

theorem distance_le_sumW {nodes : List (Int × Int)} {N i j : Nat} (hi : i < N) (hj : j < N) :
    distance nodes i j ≤ sumW nodes N := by
  have hmem : (i, j) ∈ (Finset.range N) ×ˢ (Finset.range N) :=
    Finset.mem_product.mpr ⟨Finset.mem_range.mpr hi, Finset.mem_range.mpr hj⟩
  have h : (fun p : Nat × Nat => distance nodes p.1 p.2) (i, j) ≤
      ((Finset.range N) ×ˢ (Finset.range N)).sum (fun p : Nat × Nat => distance nodes p.1 p.2) :=
    Finset.single_le_sum (fun p _ => distance_nonneg nodes p.1 p.2) hmem
  exact h

theorem domCount_le (s : AState) (N : Nat) : domCount s N ≤ N :=
  le_trans (Finset.card_filter_le _ _) (by simp)

theorem filter_isSome_upd_of_none (g : Nat → Option ℝ) (nb : Nat) (temp : ℝ) (N : Nat)
    (hnb : nb < N) (hnone : g nb = none) :
    ((Finset.range N).filter (fun n => ((upd g nb temp) n).isSome)).card =
      ((Finset.range N).filter (fun n => (g n).isSome)).card + 1 := by
  classical
  have h : (Finset.range N).filter (fun n => ((upd g nb temp) n).isSome) =
      insert nb ((Finset.range N).filter (fun n => (g n).isSome)) := by
    ext m
    simp only [Finset.mem_filter, Finset.mem_insert, Finset.mem_range]
    by_cases hm : m = nb
    · rw [hm, upd_self]
      simp [hnb]
    · rw [upd_ne g nb m temp hm]
      simp [hm]
  rw [h, Finset.card_insert_of_not_mem]
  simp [Finset.mem_filter, hnone]

theorem filter_isSome_upd_of_some (g : Nat → Option ℝ) (nb : Nat) (temp : ℝ) (N : Nat)
    (hsome : (g nb).isSome = true) :
    ((Finset.range N).filter (fun n => ((upd g nb temp) n).isSome)).card =
      ((Finset.range N).filter (fun n => (g n).isSome)).card := by
  classical
  congr 1
  ext m
  simp only [Finset.mem_filter, Finset.mem_range]
  by_cases hm : m = nb
  · rw [hm, upd_self]
    simp [hsome]
  · rw [upd_ne g nb m temp hm]

theorem relax_sizeInv {nodes : List (Int × Int)} {matrix : List (List Nat)} {s : AState}
    (inv : LoopInv nodes matrix s) (sz : SizeInv nodes matrix.length s)
    {goal current nb : Nat} (hN : 0 < matrix.length)
    (hdom : (s.travelled_cost current).isSome = true)
    (hnb : nb ∈ adjacent_nodes matrix current) :
    SizeInv nodes matrix.length (relax nodes goal current s nb) := by
  obtain ⟨gc, hgc⟩ := Option.isSome_iff_exists.mp hdom
  have hcurN : current < matrix.length := by
    rcases inv.dom_lt current (by rw [hgc]; rfl) with h0 | h
    · omega
    · exact h
  have hnbN : nb < matrix.length := adjacent_nodes_lt hnb
  have hsumnn := sumW_nonneg nodes matrix.length
  have hd0 := distance_nonneg nodes current nb
  have hdle : distance nodes current nb ≤ sumW nodes matrix.length :=
    distance_le_sumW hcurN hnbN
  by_cases hup : s.travelled_cost nb = none ∨
      ∃ cnb, s.travelled_cost nb = some cnb ∧ gc + distance nodes current nb < cnb
  · rw [relax_eq_of_improve nodes goal current nb s gc hgc hup]
    constructor
    · intro n v hv
      dsimp only at hv
      show v ≤
        (((Finset.range matrix.length).filter
          (fun m => ((upd s.travelled_cost nb (gc + distance nodes current nb)) m).isSome)).card :
            ℝ) * sumW nodes matrix.length
      rcases hup with hnone | ⟨cnb, hcnb, hlt⟩
      · rw [filter_isSome_upd_of_none s.travelled_cost nb _ matrix.length hnbN hnone]
        have hgcb := sz.vbound current gc hgc
        unfold domCount at hgcb
        push_cast
        push_cast at hgcb
        by_cases hn : n = nb
        · rw [hn, upd_self] at hv
          injection hv with he
          rw [← he]
          nlinarith [hsumnn, hdle]
        · rw [upd_ne _ _ _ _ hn] at hv
          have hb := sz.vbound n v hv
          unfold domCount at hb
          push_cast at hb
          nlinarith [hsumnn]
      · have hnbsome : (s.travelled_cost nb).isSome = true := by rw [hcnb]; rfl
        rw [filter_isSome_upd_of_some s.travelled_cost nb _ matrix.length hnbsome]
        by_cases hn : n = nb
        · rw [hn, upd_self] at hv
          injection hv with he
          rw [← he]
          have hb := sz.vbound nb cnb hcnb
          unfold domCount at hb
          linarith
        · rw [upd_ne _ _ _ _ hn] at hv
          have hb := sz.vbound n v hv
          unfold domCount at hb
          exact hb
    · intro n v hv
      dsimp only at hv
      by_cases hn : n = nb
      · rw [hn, upd_self] at hv
        injection hv with he
        obtain ⟨M, hM, hMs⟩ := sz.vrepr current gc hgc
        rcases eq_or_lt_of_le hd0 with hd | hd
        · refine ⟨M, hM, ?_⟩
          rw [hMs, ← he, ← hd]
          ring
        · refine ⟨distance nodes current nb ::ₘ M, ?_, ?_⟩
          · intro x hx
            rcases Multiset.mem_cons.mp hx with rfl | hx
            · exact ⟨hd, current, hcurN, nb, hnbN, rfl⟩
            · exact hM x hx
          · rw [Multiset.sum_cons, hMs, ← he]
            ring
      · rw [upd_ne _ _ _ _ hn] at hv
        exact sz.vrepr n v hv
  · push_neg at hup
    obtain ⟨hns, hnlt⟩ := hup
    obtain ⟨cnb, hcnb⟩ := Option.ne_none_iff_exists.mp hns
    rw [relax_eq_of_no_improve nodes goal current nb s gc hgc cnb hcnb.symm
      (not_lt.mpr (hnlt cnb hcnb.symm))]
    exact sz

theorem sizeInv_replace_frontier {nodes : List (Int × Int)} {N : Nat} {s : AState}
    (sz : SizeInv nodes N s) (fr : List NodeCost) (b : Bool) :
    SizeInv nodes N { s with frontier := fr, found := b } :=
  ⟨sz.vbound, sz.vrepr⟩

theorem foldl_relax_bothInv {nodes : List (Int × Int)} {matrix : List (List Nat)}
    {goal current : Nat} (hN : 0 < matrix.length) (hreach : Reachable matrix 0 current) :
    ∀ (l : List Nat), (∀ nb ∈ l, nb ∈ adjacent_nodes matrix current) →
      ∀ s : AState, LoopInv nodes matrix s → SizeInv nodes matrix.length s →
        (s.travelled_cost current).isSome = true →
        LoopInv nodes matrix (l.foldl (relax nodes goal current) s) ∧
          SizeInv nodes matrix.length (l.foldl (relax nodes goal current) s) := by
  intro l
  induction l with
  | nil => exact fun _ s i z _ => ⟨i, z⟩
  | cons z l ih =>
    intro hl s inv sz hdom
    exact ih (fun nb h => hl nb (List.mem_cons_of_mem _ h)) _
      (relax_loopInv inv hdom hreach (hl z (List.mem_cons_self _ _)))
      (relax_sizeInv inv sz hN hdom (hl z (List.mem_cons_self _ _)))
      (relax_isSome_mono nodes goal current s z current hdom)

theorem initState_sizeInv (nodes : List (Int × Int)) (N : Nat) : SizeInv nodes N initState := by
  constructor
  · intro n v hv
    dsimp only [initState] at hv
    by_cases hn : n = 0
    · rw [if_pos hn] at hv
      injection hv with he
      rw [← he]
      exact mul_nonneg (Nat.cast_nonneg _) (sumW_nonneg nodes N)
    · rw [if_neg hn] at hv
      exact Option.noConfusion hv
  · intro n v hv
    dsimp only [initState] at hv
    by_cases hn : n = 0
    · rw [if_pos hn] at hv
      injection hv with he
      refine ⟨0, by simp, ?_⟩
      rw [← he]
      simp
    · rw [if_neg hn] at hv
      exact Option.noConfusion hv

theorem recorded_mem_valueSet {nodes : List (Int × Int)} {N : Nat} {s : AState}
    (sz : SizeInv nodes N s) {n : Nat} {v : ℝ}
    (hv : s.travelled_cost n = some v) : v ∈ valueSet nodes N := by
  classical
  obtain ⟨M, hM, hMs⟩ := sz.vrepr n v hv
  have hvC : v ≤ N * sumW nodes N := by
    have hb := sz.vbound n v hv
    have hdc : (domCount s N : ℝ) ≤ N := by exact_mod_cast domCount_le s N
    nlinarith [sumW_nonneg nodes N]
  have hmemT : ∀ x ∈ M, x ∈ weightsPos nodes N := by
    intro x hx
    obtain ⟨hpos, i, hi, j, hj, hxd⟩ := hM x hx
    unfold weightsPos
    rw [Finset.mem_filter]
    refine ⟨?_, hpos⟩
    rw [Finset.mem_image]
    exact ⟨(i, j),
      Finset.mem_product.mpr ⟨Finset.mem_range.mpr hi, Finset.mem_range.mpr hj⟩, hxd.symm⟩
  rcases eq_or_ne M 0 with hM0 | hM0
  · unfold valueSet
    rw [Finset.mem_image]
    refine ⟨0, ?_, ?_⟩
    · rw [Multiset.mem_toFinset, Multiset.mem_powerset]
      exact Multiset.zero_le _
    · rw [← hMs, hM0]
  · obtain ⟨w, hw⟩ := Multiset.exists_mem_of_ne_zero hM0
    have hTne : (weightsPos nodes N).Nonempty := ⟨w, hmemT w hw⟩
    have hδpos : 0 < (weightsPos nodes N).min' hTne := by
      have hmm := Finset.min'_mem (weightsPos nodes N) hTne
      unfold weightsPos at hmm
      rw [Finset.mem_filter] at hmm
      exact hmm.2
    have hδle : ∀ x ∈ M, (weightsPos nodes N).min' hTne ≤ x :=
      fun x hx => Finset.min'_le _ x (hmemT x hx)
    have hcard : M.card • (weightsPos nodes N).min' hTne ≤ M.sum :=
      Multiset.card_nsmul_le_sum hδle
    have hcardK : M.card ≤ capK nodes N := by
      unfold capK
      rw [dif_pos hTne]
      apply Nat.le_floor
      rw [le_div_iff hδpos]
      rw [nsmul_eq_mul] at hcard
      calc (M.card : ℝ) * (weightsPos nodes N).min' hTne ≤ M.sum := hcard
        _ = v := hMs
        _ ≤ N * sumW nodes N := hvC
    have hle : M ≤ capK nodes N • (weightsPos nodes N).val := by
      rw [Multiset.le_iff_count]
      intro a
      by_cases ha : a ∈ M
      · have haT : a ∈ weightsPos nodes N := hmemT a ha
        have h1 : Multiset.count a M ≤ M.card := Multiset.count_le_card a M
        have h2 : Multiset.count a ((weightsPos nodes N).val) = 1 :=
          Multiset.count_eq_one_of_mem (weightsPos nodes N).nodup haT
        rw [Multiset.count_nsmul, h2, mul_one]
        omega
      · rw [Multiset.count_eq_zero.mpr ha]
        omega
    unfold valueSet
    rw [Finset.mem_image]
    refine ⟨M, ?_, hMs⟩
    rw [Multiset.mem_toFinset, Multiset.mem_powerset]
    exact hle

theorem phiNode_eq_of_some {A : Finset ℝ} {s : AState} {n : Nat} {v : ℝ}
    (hv : s.travelled_cost n = some v) :
    phiNode A s n = (A.filter (fun a => a < v)).card := by
  unfold phiNode
  rw [hv]

theorem phiNode_eq_of_none {A : Finset ℝ} {s : AState} {n : Nat}
    (hv : s.travelled_cost n = none) :
    phiNode A s n = A.card + 1 := by
  unfold phiNode
  rw [hv]

theorem sum_update_le {N nb : Nat} (hnb : nb < N) (f g : Nat → Nat)
    (hoff : ∀ m, ¬ m = nb → g m = f m) (hat : g nb + 1 ≤ f nb) :
    (Finset.range N).sum g + 1 ≤ (Finset.range N).sum f := by
  have h1 : ∀ m ∈ Finset.range N, g m ≤ f m := by
    intro m _
    by_cases hm : m = nb
    · rw [hm]
      omega
    · rw [hoff m hm]
  have h2 : ∃ m ∈ Finset.range N, g m < f m :=
    ⟨nb, Finset.mem_range.mpr hnb, by omega⟩
  have h3 : (Finset.range N).sum g < (Finset.range N).sum f := Finset.sum_lt_sum h1 h2
  omega

theorem phiState_push_upd_le {A : Finset ℝ} {N : Nat} (s : AState) (e : NodeCost)
    (P : Nat → Option Nat) (nb : Nat) (temp : ℝ) (hnbN : nb < N) (htempA : temp ∈ A)
    (hcond : s.travelled_cost nb = none ∨
      ∃ cnb, s.travelled_cost nb = some cnb ∧ temp < cnb) :
    phiState A N
        { s with
          prev_node := P,
          travelled_cost := upd s.travelled_cost nb temp,
          frontier := e :: s.frontier } ≤
      phiState A N s := by
  classical
  unfold phiState
  dsimp only
  rw [List.length_cons]
  have hup_self : (upd s.travelled_cost nb temp) nb = some temp := upd_self _ _ _
  have hoff : ∀ m, ¬ m = nb →
      phiNode A
        { s with
          prev_node := P,
          travelled_cost := upd s.travelled_cost nb temp,
          frontier := e :: s.frontier } m =
        phiNode A s m := by
    intro m hm
    unfold phiNode
    dsimp only
    rw [upd_ne _ _ _ _ hm]
  have hat : phiNode A
      { s with
        prev_node := P,
        travelled_cost := upd s.travelled_cost nb temp,
        frontier := e :: s.frontier } nb + 1 ≤
      phiNode A s nb := by
    have hleft : phiNode A
        { s with
          prev_node := P,
          travelled_cost := upd s.travelled_cost nb temp,
          frontier := e :: s.frontier } nb =
        (A.filter (fun a => a < temp)).card := by
      unfold phiNode
      dsimp only
      rw [hup_self]
    rw [hleft]
    rcases hcond with hnone | ⟨cnb, hcnb, hlt⟩
    · rw [phiNode_eq_of_none hnone]
      have hfc := Finset.card_filter_le A (fun a => a < temp)
      omega
    · rw [phiNode_eq_of_some hcnb]
      have hss : A.filter (fun a => a < temp) ⊂ A.filter (fun a => a < cnb) := by
        rw [Finset.ssubset_iff_of_subset
          (Finset.monotone_filter_right A (fun a ha => lt_trans ha hlt))]
        refine ⟨temp, ?_, ?_⟩
        · rw [Finset.mem_filter]
          exact ⟨htempA, hlt⟩
        · rw [Finset.mem_filter]
          intro hcon
          exact absurd hcon.2 (lt_irrefl _)
      have hcc := Finset.card_lt_card hss
      omega
  have hsum := sum_update_le hnbN _ _ hoff hat
  omega

theorem relax_phi_le {nodes : List (Int × Int)} {matrix : List (List Nat)} {A : Finset ℝ}
    {goal current nb : Nat} {s : AState}
    (inv : LoopInv nodes matrix s) (sz : SizeInv nodes matrix.length s)
    (hN : 0 < matrix.length)
    (hdom : (s.travelled_cost current).isSome = true)
    (hnb : nb ∈ adjacent_nodes matrix current)
    (hA : ∀ s' : AState, SizeInv nodes matrix.length s' → ∀ n v,
      s'.travelled_cost n = some v → v ∈ A) :
    phiState A matrix.length (relax nodes goal current s nb) ≤ phiState A matrix.length s := by
  classical
  obtain ⟨gc, hgc⟩ := Option.isSome_iff_exists.mp hdom
  have hnbN : nb < matrix.length := adjacent_nodes_lt hnb
  by_cases hup : s.travelled_cost nb = none ∨
      ∃ cnb, s.travelled_cost nb = some cnb ∧ gc + distance nodes current nb < cnb
  · have hsz' : SizeInv nodes matrix.length (relax nodes goal current s nb) :=
      relax_sizeInv inv sz hN hdom hnb
    have htempA : gc + distance nodes current nb ∈ A := by
      refine hA _ hsz' nb (gc + distance nodes current nb) ?_
      rw [relax_eq_of_improve nodes goal current nb s gc hgc hup]
      exact upd_self _ _ _
    rw [relax_eq_of_improve nodes goal current nb s gc hgc hup]
    exact phiState_push_upd_le s _ _ nb (gc + distance nodes current nb) hnbN htempA hup
  · push_neg at hup
    obtain ⟨hns, hnlt⟩ := hup
    obtain ⟨cnb, hcnb⟩ := Option.ne_none_iff_exists.mp hns
    rw [relax_eq_of_no_improve nodes goal current nb s gc hgc cnb hcnb.symm
      (not_lt.mpr (hnlt cnb hcnb.symm))]

theorem foldl_relax_phi {nodes : List (Int × Int)} {matrix : List (List Nat)} {A : Finset ℝ}
    {goal current : Nat} (hN : 0 < matrix.length) (hreach : Reachable matrix 0 current)
    (hA : ∀ s' : AState, SizeInv nodes matrix.length s' → ∀ n v,
      s'.travelled_cost n = some v → v ∈ A) :
    ∀ (l : List Nat), (∀ nb ∈ l, nb ∈ adjacent_nodes matrix current) →
      ∀ s : AState, LoopInv nodes matrix s → SizeInv nodes matrix.length s →
        (s.travelled_cost current).isSome = true →
        phiState A matrix.length (l.foldl (relax nodes goal current) s) ≤
          phiState A matrix.length s := by
  intro l
  induction l with
  | nil => exact fun _ s _ _ _ => le_rfl
  | cons z l ih =>
    intro hl s inv sz hdom
    refine le_trans (ih (fun nb h => hl nb (List.mem_cons_of_mem _ h)) _
      (relax_loopInv inv hdom hreach (hl z (List.mem_cons_self _ _)))
      (relax_sizeInv inv sz hN hdom (hl z (List.mem_cons_self _ _)))
      (relax_isSome_mono nodes goal current s z current hdom)) ?_
    exact relax_phi_le inv sz hN hdom (hl z (List.mem_cons_self _ _)) hA

theorem searchLoop_terminates (nodes : List (Int × Int)) (matrix : List (List Nat))
    (goal : Nat) (hN : 0 < matrix.length) :
    ∀ (B : Nat) (s : AState), LoopInv nodes matrix s → SizeInv nodes matrix.length s →
      phiState (valueSet nodes matrix.length) matrix.length s ≤ B →
      ∃ fuel s', searchLoop nodes matrix goal fuel s = some s' := by
  intro B
  induction B with
  | zero =>
    intro s inv sz hB
    have hlen : s.frontier.length = 0 := by
      unfold phiState at hB
      omega
    have hnil : s.frontier = [] := List.length_eq_zero.mp hlen
    refine ⟨1, s, ?_⟩
    have h1 : (1 : Nat) = 0 + 1 := rfl
    rw [h1, searchLoop, hnil]
    rfl
  | succ B ih =>
    intro s inv sz hB
    cases hp : popMax s.frontier with
    | none =>
      refine ⟨1, s, ?_⟩
      have h1 : (1 : Nat) = 0 + 1 := rfl
      rw [h1, searchLoop, hp]
    | some pr =>
      obtain ⟨current, rest⟩ := pr
      by_cases hg : current.node = goal
      · refine ⟨1, { s with frontier := rest, found := true }, ?_⟩
        have h1 : (1 : Nat) = 0 + 1 := rfl
        rw [h1, searchLoop, hp]
        dsimp only
        rw [if_pos hg]
      · have hmem := popMax_mem hp
        have hsub : ∀ e ∈ rest, e ∈ s.frontier := by
          intro e he
          rw [hmem.2] at he
          exact List.erase_subset _ _ he
        have hcur_dom : (s.travelled_cost current.node).isSome = true :=
          inv.frontier_dom current hmem.1
        have hreach : Reachable matrix 0 current.node := inv.reach _ hcur_dom
        have inv2 : LoopInv nodes matrix { s with frontier := rest } :=
          loopInv_replace_frontier inv rest s.found hsub
        have sz2 : SizeInv nodes matrix.length { s with frontier := rest } :=
          sizeInv_replace_frontier sz rest s.found
        obtain ⟨invF, szF⟩ : LoopInv nodes matrix
            ((adjacent_nodes matrix current.node).foldl (relax nodes goal current.node)
              { s with frontier := rest }) ∧
            SizeInv nodes matrix.length
              ((adjacent_nodes matrix current.node).foldl (relax nodes goal current.node)
                { s with frontier := rest }) :=
          foldl_relax_bothInv hN hreach _ (fun nb hh => hh)
            { s with frontier := rest } inv2 sz2 hcur_dom
        have hphi_fold : phiState (valueSet nodes matrix.length) matrix.length
            ((adjacent_nodes matrix current.node).foldl (relax nodes goal current.node)
              { s with frontier := rest }) ≤
            phiState (valueSet nodes matrix.length) matrix.length
              { s with frontier := rest } :=
          foldl_relax_phi hN hreach (fun t hszt n v hv => recorded_mem_valueSet hszt hv) _
            (fun nb hh => hh) { s with frontier := rest } inv2 sz2 hcur_dom
        have hsums : (Finset.range matrix.length).sum
            (phiNode (valueSet nodes matrix.length) { s with frontier := rest }) =
            (Finset.range matrix.length).sum (phiNode (valueSet nodes matrix.length) s) := rfl
        have hphi_pop : phiState (valueSet nodes matrix.length) matrix.length
            { s with frontier := rest } + 1 =
            phiState (valueSet nodes matrix.length) matrix.length s := by
          unfold phiState
          dsimp only
          rw [hsums]
          have hl := List.length_erase_of_mem hmem.1
          have hpos : 0 < s.frontier.length := List.length_pos_of_mem hmem.1
          rw [hmem.2, hl]
          omega
        have hphiF : phiState (valueSet nodes matrix.length) matrix.length
            ((adjacent_nodes matrix current.node).foldl
              (relax nodes goal current.node) { s with frontier := rest }) ≤ B := by
          omega
        obtain ⟨f, s', hf⟩ := ih _ invF szF hphiF
        refine ⟨f + 1, s', ?_⟩
        rw [searchLoop, hp]
        dsimp only
        rw [if_neg hg]
        exact hf

theorem searchLoop_not_found (nodes : List (Int × Int)) (matrix : List (List Nat))
    (goal : Nat) (hnr : ¬ Reachable matrix 0 goal) :
    ∀ (fuel : Nat) (s s' : AState), LoopInv nodes matrix s → s.found = false →
      searchLoop nodes matrix goal fuel s = some s' → s'.found = false := by
  intro fuel
  induction fuel with
  | zero => intro s s' _ _ h; simp [searchLoop] at h
  | succ f ih =>
    intro s s' inv hsf h
    rw [searchLoop] at h
    cases hp : popMax s.frontier with
    | none =>
      rw [hp] at h
      injection h with h
      rw [← h]
      exact hsf
    | some pr =>
      obtain ⟨current, rest⟩ := pr
      rw [hp] at h
      dsimp only at h
      have hmem := popMax_mem hp
      by_cases hg : current.node = goal
      · exfalso
        have hdom := inv.frontier_dom current hmem.1
        have hre := inv.reach _ hdom
        rw [hg] at hre
        exact hnr hre
      · rw [if_neg hg] at h
        have hsub : ∀ e ∈ rest, e ∈ s.frontier := by
          intro e he
          rw [hmem.2] at he
          exact List.erase_subset _ _ he
        have hcur_dom : (s.travelled_cost current.node).isSome = true :=
          inv.frontier_dom current hmem.1
        have hreach : Reachable matrix 0 current.node := inv.reach _ hcur_dom
        have inv2 : LoopInv nodes matrix { s with frontier := rest } :=
          loopInv_replace_frontier inv rest s.found hsub
        refine ih _ _ (foldl_relax_loopInv hreach _ (fun nb hh => hh) _ inv2 hcur_dom) ?_ h
        rw [foldl_relax_found]
        exact hsf

/-- **C6**: on every well-formed graph in which no traversal path from the
start node to the goal node exists, the search terminates with the frontier
exhausted and reports the distinct no-path outcome: no path and no cost are
produced, and no error arises. -/
theorem c6_no_path_reports_noPath (nodes : List (Int × Int)) (matrix : List (List Nat))
    (hmn : matrix.length = nodes.length) (h1 : 1 ≤ nodes.length)
    (hnr : ¬ Reachable matrix 0 (nodes.length - 1)) :
    ∃ fuel, ∀ rfuel, runSearch nodes matrix fuel rfuel = some SearchOutcome.noPath := by
  have hN : 0 < matrix.length := by omega
  obtain ⟨fuel, s', hrun⟩ := searchLoop_terminates nodes matrix (nodes.length - 1) hN
    (phiState (valueSet nodes matrix.length) matrix.length initState) initState
    (initState_loopInv nodes matrix) (initState_sizeInv nodes matrix.length) le_rfl
  have hfound : s'.found = false := searchLoop_not_found nodes matrix (nodes.length - 1) hnr
    fuel initState s' (initState_loopInv nodes matrix) rfl hrun
  refine ⟨fuel, fun rfuel => ?_⟩
  unfold runSearch
  rw [hrun]
  dsimp only
  unfold render
  rw [hfound]
  rfl

/-- **C6** (witness): a concrete 2-node graph with no edges at all; the goal
is unreachable and the search reports the no-path outcome. -/
theorem c6_no_path_reports_noPath_witness :
    ∃ fuel, ∀ rfuel,
      runSearch [(0, 0), (5, 0)] [[0, 0], [0, 0]] fuel rfuel = some SearchOutcome.noPath := by
  refine c6_no_path_reports_noPath [(0, 0), (5, 0)] [[0, 0], [0, 0]] rfl (by norm_num) ?_
  intro hre
  rcases (Relation.ReflTransGen.cases_head hre) with h0 | ⟨c, hstep, _⟩
  · exact absurd h0 (by norm_num)
  · revert hstep
    show ¬ stepsTo [[0, 0], [0, 0]] 0 c
    intro hstep
    have : c ∈ adjacent_nodes [[0, 0], [0, 0]] 0 := hstep
    rw [show adjacent_nodes [[0, 0], [0, 0]] 0 = [] from rfl] at this
    exact absurd this (List.not_mem_nil c)
